import Mathlib

/-!
# go-pob-data: the export pipeline of `main.go`

A shallow embedding of `extractRawData` (the table exporter) and
`downloadTreeData` (the tree asset synchroniser) together with the properties
of the export pipeline that are checked against it.

Conventions of the embedding

* Byte sequences are lists of naturals, paths and names are strings.
* Everything the program obtains from outside (the bundle decoder, the
  filesystem, the network, library routines whose result is not computed here)
  is an explicit parameter; the program text itself is translated statement by
  statement.
* `os.Exit(1)` is the outcome `Status.exit1`, a Go run-time panic is
  `Status.panicked` (the Go runtime ends the process with status 2), falling
  off the end of the function is `Status.completed`.
-/

namespace PobData

/-- Byte sequences (`[]byte`). -/
abbrev Bytes := List Nat

/-! ## Fixed tables of `main.go` -/

/-- The table catalog, `filesToExport` (main.go, lines 24-60). -/
def filesToExport : List String :=
  [ "Data/PassiveTreeExpansionJewels.dat64",
    "Data/PassiveTreeExpansionSkills.dat64",
    "Data/PassiveTreeExpansionSpecialSkills.dat64",
    "Data/CostTypes.dat64",
    "Data/Mods.dat64",
    "Data/ActiveSkills.dat64",
    "Data/Essences.dat64",
    "Data/CraftingBenchOptions.dat64",
    "Data/PantheonPanelLayout.dat64",
    "Data/WeaponTypes.dat64",
    "Data/ArmourTypes.dat64",
    "Data/ShieldTypes.dat64",
    "Data/Flasks.dat64",
    "Data/ComponentCharges.dat64",
    "Data/ComponentAttributeRequirements.dat64",
    "Data/BaseItemTypes.dat64",
    "Data/Stats.dat64",
    "Data/AlternatePassiveSkills.dat64",
    "Data/AlternatePassiveAdditions.dat64",
    "Data/DefaultMonsterStats.dat64",
    "Data/SkillTotemVariations.dat64",
    "Data/MonsterVarieties.dat64",
    "Data/MonsterMapDifficulty.dat64",
    "Data/MonsterMapBossDifficulty.dat64",
    "Data/GrantedEffects.dat64",
    "Data/SkillTotems.dat64",
    "Data/GrantedEffectStatSetsPerLevel.dat64",
    "Data/GrantedEffectsPerLevel.dat64",
    "Data/GrantedEffectQualityStats.dat64",
    "Data/SkillGems.dat64",
    "Data/ItemExperiencePerLevel.dat64",
    "Data/Tags.dat64",
    "Data/ActiveSkillType.dat64",
    "Data/ItemClasses.dat64",
    "Data/GrantedEffectStatSets.dat64" ]

/-- The constant `GGG_REPO_BASE` (main.go, line 62) up to its `%s` verb; the
verb is followed by `/`, so `fmt.Sprintf(GGG_REPO_BASE, treeVersion)` is
`GGG_REPO_BASE ++ treeVersion ++ "/"`. -/
def GGG_REPO_BASE : String :=
  "https://raw.githubusercontent.com/grindinggear/skilltree-export/"

/-- The sprite groups, `skillTreeSpriteGroups` (main.go, lines 64-85). -/
def skillTreeSpriteGroups : List String :=
  [ "background",
    "normalActive",
    "notableActive",
    "keystoneActive",
    "normalInactive",
    "notableInactive",
    "keystoneInactive",
    "mastery",
    "masteryConnected",
    "masteryActiveSelected",
    "masteryInactive",
    "masteryActiveEffect",
    "ascendancyBackground",
    "ascendancy",
    "startNode",
    "groupBackground",
    "frame",
    "jewel",
    "line",
    "jewelRadius" ]

/-- How a run of the program (or of one of its two phases) ends. -/
inductive Status
  | completed
  | exit1
  | panicked
  deriving DecidableEq, Repr

/-- The process exit status that goes with an outcome: `0` when the function
returns, `1` for `os.Exit(1)`, `2` for an unrecovered Go panic. -/
def Status.code : Status → Nat
  | .completed => 0
  | .exit1 => 1
  | .panicked => 2

/-! ## Library routines computed in the embedding -/

/-- Drops the trailing `/` characters of a reversed path. -/
def dropSlashes : List Char → List Char
  | [] => []
  | c :: cs => if c = '/' then dropSlashes cs else c :: cs

/-- The last path element, `path.Base` (and `filepath.Base` on a system whose
separator is `/`): trailing slashes are removed, the text after the last
remaining slash is returned, the empty path gives `.` and a path made of
slashes only gives `/`. -/
def pathBase (p : String) : String :=
  if p.data = [] then "."
  else
    let r := dropSlashes p.data.reverse
    let last := (r.takeWhile (fun c => c ≠ '/')).reverse
    if last = [] then "/" else String.mk last

/-- The first element of `strings.Split(s, ".")`: the text before the first
dot, or all of `s` when it has none. -/
def splitDotFirst (s : String) : String :=
  String.mk (s.data.takeWhile (fun c => c ≠ '.'))

/-- The result `filepath.Join("data", gameVersion, dir, name)` for path
elements that are already clean: the elements separated by `/`. (The lexical
normalisation `filepath.Clean` applies to unclean elements is not part of the
embedding.) -/
def outPath (gameVersion dir name : String) : String :=
  "data/" ++ gameVersion ++ "/" ++ dir ++ "/" ++ name

/-! ## The contract of `sort.Slice`

`sort.Slice` belongs to the Go standard library.  It enters the embedding as a
parameter `sortSlice less xs`, the slice after the call, constrained by what
its documentation promises: for a `less` that is a strict weak ordering the
result is a rearrangement of `xs` in which no element is `less` than an earlier
one.  The documentation adds that the sort is not guaranteed to be stable. -/

/-- The requirement `sort.Slice` puts on `less`: a strict weak ordering. -/
def StrictWeak {α : Type} (less : α → α → Bool) : Prop :=
  (∀ a, less a a = false) ∧
  (∀ a b c, less a b = true → less b c = true → less a c = true) ∧
  (∀ a b c, less a b = false → less b c = false → less a c = false)

/-- The documented contract of `sort.Slice`. -/
def SortSliceSpec {α : Type} (sortSlice : (α → α → Bool) → List α → List α) : Prop :=
  ∀ less, StrictWeak less → ∀ xs,
    (sortSlice less xs).Perm xs ∧
    (sortSlice less xs).Pairwise (fun a b => less b a = false)

/-- Insertion of `x` into a sorted list behind every element that is not
greater: one pass of the inner loop of an insertion sort. -/
def insertLess {α : Type} (less : α → α → Bool) (x : α) : List α → List α
  | [] => [x]
  | y :: ys => if less x y then x :: y :: ys else y :: insertLess less x ys

/-- Insertion sort, the routine `sort.Slice` runs on short slices
(`insertionSortLessFunc`), on lists. It meets `SortSliceSpec` and serves as the
concrete sorter of the worked examples. -/
def insertionSortLessFunc {α : Type} (less : α → α → Bool) (xs : List α) : List α :=
  xs.foldl (fun acc x => insertLess less x acc) []

/-- The slice after `data.Swap(0, p)`: the first element and the element at
position `p` change places (nothing happens when `p` is 0 or out of range). -/
def swapFront {α : Type} (xs : List α) (p : Nat) : List α :=
  match xs, p with
  | [], _ => []
  | x :: rest, 0 => x :: rest
  | x :: rest, i + 1 =>
    match rest.get? i with
    | none => x :: rest
    | some y => y :: rest.set i x

/-- A second sorter that meets `SortSliceSpec`: like the partition step of a
quicksort it first swaps a pivot, the element at position `n / 4 * 2` of the
`n` elements, with the first element, then it runs insertion sort. -/
def pivotFirstSort {α : Type} (less : α → α → Bool) (xs : List α) : List α :=
  insertionSortLessFunc less (swapFront xs (xs.length / 4 * 2))

/-! ## The table exporter -/

/-- The comparison handed to `sort.Slice` (main.go, line 148): the first field
of record `a`, read as an integer, is smaller than that of record `b`. -/
def keyLess {ρ : Type} (key : ρ → Int) (a b : ρ) : Bool :=
  decide (key a < key b)

/-- The record set after main.go, lines 146-149: `dat` as `sort.Slice` leaves
it; this is the value handed to `json.Marshal` on line 151. -/
def sortedDat {ρ : Type} (sortSlice : (ρ → ρ → Bool) → List ρ → List ρ)
    (key : ρ → Int) (dat : List ρ) : List ρ :=
  sortSlice (keyLess key) dat

/-- Stability of an export: for every key value the records carrying it occur
in `out` in the order they have in `dat`. -/
def Stable {ρ : Type} (key : ρ → Int) (dat out : List ρ) : Prop :=
  ∀ k : Int, out.filter (fun r => key r == k) = dat.filter (fun r => key r == k)

/-- The three ways `os.MkdirAll` can end that the program tells apart: success,
an error for which `os.IsExist` holds (ignored), any other error (fatal). -/
inductive MkdirResult
  | ok
  | existsErr
  | otherErr
  deriving DecidableEq, Repr

/-- The ways `os.WriteFile` can end: success, failure to open the file, or a
write error after the given number of bytes reached the file. -/
inductive WriteFileResult
  | ok
  | openErr
  | writeErr (written : Nat)
  deriving DecidableEq, Repr

/-- The operating system, the network and the library routines whose results
the embedding does not compute, as seen by one run.

* `stat p`: `os.Stat(p)` returns no error.
* `mkdirAll p`: the outcome of `os.MkdirAll(p, 0755)`.
* `openFile p`: `os.OpenFile(p, os.O_WRONLY|os.O_CREATE, 0755)` returns no error.
* `writeErr p`: `none` when the compressing writer on `p` accepts its payload,
  `some n` when `Write` returns an error after `n` bytes of the compressed
  stream reached the file. (The results of the two `Close` calls are discarded
  by the program; a stream whose `Write` succeeded is taken to be complete.)
* `writeFile p`: the outcome of `os.WriteFile(p, _, 0755)`.
* `gzip`, `brotli`: the byte stream the respective writer produces for a payload.
* `httpGet u`: `none` when `http.DefaultClient.Get(u)` returns an error,
  `some none` when `io.ReadAll` of the body does, `some (some body)` otherwise.
* `urlParsePath s`: the `Path` of `url.Parse(s)`, `none` when it returns an error. -/
structure Host where
  stat : String → Bool
  mkdirAll : String → MkdirResult
  openFile : String → Bool
  writeErr : String → Option Nat
  writeFile : String → WriteFileResult
  gzip : Bytes → Bytes
  brotli : Bytes → Bytes
  httpGet : String → Option (Option Bytes)
  urlParsePath : String → Option String

/-- Modelled from the spec: the bundle/record decoder of package `extractor`,
whose code is not among the source files, and the two library calls applied to
its records. Section 6 of the spec gives its interface: `GetBundleLoader(rootFS)`
yields a loader or an error, `Loader.Open(tablePath)` the raw bytes or an error,
`ParseDat(rawBytes, tableBaseName)` a record set or an error, and every decoded
record exposes a first field that is a 64-bit signed integer (`key`, what
`reflect.ValueOf(r).Field(0).Int()` reads). `sortSlice` is `sort.Slice`,
`jsonMarshal` is `json.Marshal`. -/
structure Decoder (ρ : Type) where
  getBundleLoader : String → Bool
  loaderOpen : String → String → Option Bytes
  parseDat : Bytes → String → Option (List ρ)
  key : ρ → Int
  sortSlice : (ρ → ρ → Bool) → List ρ → List ρ
  jsonMarshal : List ρ → Option Bytes

/-- The regular files of the filesystem: the content stored under each path. -/
abbrev FS := String → Option Bytes

/-- The content of a file holding `old` after `stream` is written from offset 0
through a descriptor opened without `O_TRUNC`: the bytes of `old` beyond the
length of `stream` stay in place. -/
def overwrite (old stream : Bytes) : Bytes :=
  stream ++ old.drop stream.length

/-- The filesystem after `os.OpenFile(p, O_WRONLY|O_CREATE)` followed by a write
of `stream`: the file is created empty when missing and is not truncated when
present. -/
def FS.writeAt (fs : FS) (p : String) (stream : Bytes) : FS :=
  fun q => if q = p then some (overwrite ((fs p).getD []) stream) else fs q

/-- The filesystem after `os.WriteFile(p, data)`, which truncates. -/
def FS.put (fs : FS) (p : String) (data : Bytes) : FS :=
  fun q => if q = p then some data else fs q

/-- One compressed copy (main.go, lines 169-184 and 189-204, again 235-250 and
254-269): open `p` for writing, creating it if needed, push `stream` through
the writer, close. -/
def writeStream (host : Host) (p : String) (stream : Bytes) (fs : FS) : Status × FS :=
  if host.openFile p then
    match host.writeErr p with
    | some n => (.exit1, fs.writeAt p (stream.take n))
    | none => (.completed, fs.writeAt p stream)
  else (.exit1, fs)

/-- The dual-compression block (main.go, lines 158-204 and 225-269): create the
directory, write the gzip copy of `b` to `gzPath`, then the brotli copy of the
same `b` to `brPath`. -/
def writeDual (host : Host) (dir gzPath brPath : String) (b : Bytes) (fs : FS) :
    Status × FS :=
  if host.mkdirAll dir = .otherErr then (.exit1, fs)
  else
    let r := writeStream host gzPath (host.gzip b) fs
    if r.1 = .completed then writeStream host brPath (host.brotli b) r.2 else r

/-- The table name without its extension,
`strings.Split(filepath.Base(file), ".")[0]` (main.go, lines 158 and 186). -/
def tableBase (file : String) : String :=
  splitDotFirst (pathBase file)

/-- The value of `outPathGzip` (main.go, lines 158-159). -/
def outPathGzip (gameVersion file : String) : String :=
  outPath gameVersion "raw" (tableBase file ++ ".json.gz")

/-- The value of `outPathBrotli` (main.go, lines 186-187). -/
def outPathBrotli (gameVersion file : String) : String :=
  outPath gameVersion "raw" (tableBase file ++ ".json.br")

/-- The value `filepath.Dir` gives for a path built by `outPath`. -/
def outDir (gameVersion dir : String) : String :=
  "data/" ++ gameVersion ++ "/" ++ dir

/-- One iteration of the loop of `extractRawData` (main.go, lines 130-204). -/
def exportTable {ρ : Type} (dec : Decoder ρ) (host : Host)
    (gamePath gameVersion file : String) (fs : FS) : Status × FS :=
  match dec.loaderOpen gamePath file with
  | none => (.exit1, fs)
  | some data =>
    match dec.parseDat data (pathBase file) with
    | none => (.exit1, fs)
    | some dat =>
      match dec.jsonMarshal (sortedDat dec.sortSlice dec.key dat) with
      | none => (.exit1, fs)
      | some b =>
        writeDual host (outDir gameVersion "raw") (outPathGzip gameVersion file)
          (outPathBrotli gameVersion file) b fs

/-- The loop of `extractRawData` over a catalog (main.go, lines 129-205): the
first iteration that ends the process ends the run. -/
def exportLoop {ρ : Type} (dec : Decoder ρ) (host : Host)
    (gamePath gameVersion : String) : List String → FS → Status × FS
  | [], fs => (.completed, fs)
  | file :: rest, fs =>
    match exportTable dec host gamePath gameVersion file fs with
    | (.completed, fs1) => exportLoop dec host gamePath gameVersion rest fs1
    | r => r

/-- The body of `extractRawData` (main.go, lines 114-206) with the catalog the
loop ranges over as a parameter: the check for the bundle index, the bundle
loader, the loop. (`extractor.LoadParser()` on line 121 returns nothing and has
no counterpart here; the messages printed with `println` are left out.) -/
def extractRawDataOn {ρ : Type} (catalog : List String) (dec : Decoder ρ) (host : Host)
    (gamePath gameVersion : String) (fs : FS) : Status × FS :=
  if host.stat (gamePath ++ "/Bundles2/_.index.bin") then
    if dec.getBundleLoader gamePath then
      exportLoop dec host gamePath gameVersion catalog fs
    else (.exit1, fs)
  else (.exit1, fs)

/-- The function `extractRawData` (main.go, lines 114-206): the body above on
the catalog `filesToExport`. -/
def extractRawData {ρ : Type} (dec : Decoder ρ) (host : Host)
    (gamePath gameVersion : String) (fs : FS) : Status × FS :=
  extractRawDataOn filesToExport dec host gamePath gameVersion fs

/-! ## The tree asset synchroniser -/

/-- Modelled from the spec: the asset reference type stored in the sprite maps
of `SkillTreeData`, whose declaration is not among the source files. The spec
(section 3) gives it one field the program reads, `Filename`; whatever else the
record carries is kept as `rest`. -/
structure AssetReference (μ : Type) where
  Filename : String
  rest : μ
  deriving DecidableEq, Repr

/-- Modelled from the spec: the type `SkillTreeData`, whose declaration is not
among the source files. Section 3 of the spec gives the two fields the program
reads: `ImageZoomLevels`, a sequence of floating-point multipliers (an
uninterpreted type `φ` here, only ever formatted), and `Sprites`, a map from
group name to a map from resolution key to asset reference. A Go map is kept as
the list of its entries, keys pairwise distinct, in the order a `range` over it
visits them; another iteration order is another arrangement of the same list. -/
structure SkillTreeData (φ μ : Type) where
  ImageZoomLevels : List φ
  Sprites : List (String × List (String × AssetReference μ))

/-- Well-formedness of a list standing for a Go map: no key occurs twice. -/
def NodupKeys {ν : Type} (m : List (String × ν)) : Prop :=
  (m.map Prod.fst).Nodup

/-- Whether a list of entries has pairwise distinct keys can be computed. -/
instance {ν : Type} (m : List (String × ν)) : Decidable (NodupKeys m) :=
  inferInstanceAs (Decidable (m.map Prod.fst).Nodup)

/-- The Go expression `m[k]`: the value stored under `k`, the zero value of the
element type when `k` is not a key of `m`. -/
def mapIndex {ν : Type} (zero : ν) (m : List (String × ν)) (k : String) : ν :=
  (m.lookup k).getD zero

/-- The zero value of `AssetReference`. -/
def AssetReference.zero {μ : Type} [Inhabited μ] : AssetReference μ :=
  { Filename := "", rest := default }

/-- The asset reference chosen for one sprite group (main.go, lines 283-289):
the entry under the preferred key, and, when its filename is empty (also when
the key is missing), the first entry a `range` over the map yields, if any. -/
def selectAsset {μ : Type} [Inhabited μ] (key : String)
    (spriteGroup : List (String × AssetReference μ)) : AssetReference μ :=
  let assetPath := mapIndex AssetReference.zero spriteGroup key
  if assetPath.Filename = "" then
    match spriteGroup with
    | [] => assetPath
    | p :: _ => p.2
  else assetPath

/-- The library routines applied to the tree description: `json.Unmarshal` into
a `SkillTreeData` (`none` when it returns an error) and
`strconv.FormatFloat(x, 'f', -1, 64)`. -/
structure TreeLib (φ μ : Type) where
  jsonUnmarshal : Bytes → Option (SkillTreeData φ μ)
  formatFloat : φ → String

/-- The state of the loop of `downloadTreeData`: the set `downloaded`, the
filesystem, and two logs kept for observation only: `resolved`, the pairs
(group, fileName) computed on line 298, and `fetched`, the pairs
(group, fileName) for which the request on line 306 was issued, both oldest
first. -/
structure TreeState where
  downloaded : List String
  resolved : List (String × String)
  fetched : List (String × String)
  fs : FS

/-- One iteration of the loop of `downloadTreeData` (main.go, lines 282-334). -/
def syncGroup {φ μ : Type} [Inhabited μ] (host : Host) (tree : SkillTreeData φ μ)
    (key repoVersionBase gameVersion group : String) (st : TreeState) :
    Status × TreeState :=
  let spriteGroup := mapIndex [] tree.Sprites group
  let assetPath := selectAsset key spriteGroup
  match host.urlParsePath assetPath.Filename with
  | none => (.exit1, st)
  | some parsedPath =>
    let fileName := pathBase parsedPath
    let st1 := { st with resolved := st.resolved ++ [(group, fileName)] }
    if fileName ∈ st.downloaded then (.completed, st1)
    else
      let st2 := { st1 with
        downloaded := fileName :: st.downloaded,
        fetched := st.fetched ++ [(group, fileName)] }
      match host.httpGet (repoVersionBase ++ "/assets/" ++ fileName) with
      | none => (.exit1, st2)
      | some none => (.exit1, st2)
      | some (some fileData) =>
        let fileOutPath := outPath gameVersion "tree/assets" fileName
        match host.mkdirAll (outDir gameVersion "tree/assets") with
        | .otherErr => (.exit1, st2)
        | _ =>
          match host.writeFile fileOutPath with
          | .ok => (.completed, { st2 with fs := st2.fs.put fileOutPath fileData })
          | .openErr => (.exit1, st2)
          | .writeErr n =>
            (.exit1, { st2 with fs := st2.fs.put fileOutPath (fileData.take n) })

/-- The loop of `downloadTreeData` over a list of groups (main.go, lines
281-335). -/
def syncLoop {φ μ : Type} [Inhabited μ] (host : Host) (tree : SkillTreeData φ μ)
    (key repoVersionBase gameVersion : String) :
    List String → TreeState → Status × TreeState
  | [], st => (.completed, st)
  | group :: rest, st =>
    match syncGroup host tree key repoVersionBase gameVersion group st with
    | (.completed, st1) => syncLoop host tree key repoVersionBase gameVersion rest st1
    | r => r

/-- The state in which the loop of `downloadTreeData` starts. -/
def TreeState.init (fs : FS) : TreeState :=
  { downloaded := [], resolved := [], fetched := [], fs := fs }

/-- The part of `downloadTreeData` after the tree description is parsed
(main.go, lines 278-335): indexing the last zoom level panics on an empty
slice. -/
def syncSprites {φ μ : Type} [Inhabited μ] (host : Host) (lib : TreeLib φ μ)
    (tree : SkillTreeData φ μ) (repoVersionBase gameVersion : String) (fs : FS) :
    Status × TreeState :=
  match tree.ImageZoomLevels.getLast? with
  | none => (.panicked, TreeState.init fs)
  | some selectedResolution =>
    syncLoop host tree (lib.formatFloat selectedResolution) repoVersionBase gameVersion
      skillTreeSpriteGroups (TreeState.init fs)

/-- The function `downloadTreeData` (main.go, lines 208-336). -/
def downloadTreeData {φ μ : Type} [Inhabited μ] (host : Host) (lib : TreeLib φ μ)
    (treeVersion gameVersion : String) (fs : FS) : Status × TreeState :=
  let repoVersionBase := GGG_REPO_BASE ++ treeVersion ++ "/"
  match host.httpGet (repoVersionBase ++ "/data.json") with
  | none => (.exit1, TreeState.init fs)
  | some none => (.exit1, TreeState.init fs)
  | some (some dataJson) =>
    match writeDual host (outDir gameVersion "tree")
        (outPath gameVersion "tree" "data.json.gz")
        (outPath gameVersion "tree" "data.json.br") dataJson fs with
    | (.completed, fs1) =>
      match lib.jsonUnmarshal dataJson with
      | none => (.exit1, TreeState.init fs1)
      | some skillTreeData => syncSprites host lib skillTreeData repoVersionBase gameVersion fs1
    | (st, fs1) => (st, TreeState.init fs1)

/-- The function `main` (main.go, lines 87-112) on the argument vector
`os.Args`: the three presence checks, then the two phases in sequence. An
`os.Exit` inside the first phase ends the process before the second. -/
def main {ρ φ μ : Type} [Inhabited μ] (dec : Decoder ρ) (host : Host) (lib : TreeLib φ μ)
    (args : List String) (fs : FS) : Status :=
  match args with
  | _ :: gamePath :: treeVersion :: gameVersion :: _ =>
    match extractRawData dec host gamePath gameVersion fs with
    | (.completed, fs1) => (downloadTreeData host lib treeVersion gameVersion fs1).1
    | (st, _) => st
  | _ => .exit1


/-- The file name `downloadTreeData` computes for a sprite group (main.go,
lines 282-298): the base name of the URL path of the filename of the selected
asset reference; `none` when `url.Parse` returns an error. -/
def resolvedName {φ μ : Type} [Inhabited μ] (host : Host) (tree : SkillTreeData φ μ)
    (key group : String) : Option String :=
  (host.urlParsePath (selectAsset key (mapIndex [] tree.Sprites group)).Filename).map pathBase

/-- The invariant of the loop of `downloadTreeData`: no file name was requested
twice; `downloaded` holds exactly the requested names; every resolved name was
requested; each request was issued for the first group that resolved to its
name; and every logged name is the one the tree description gives its group. -/
def SyncInv {φ μ : Type} [Inhabited μ] (host : Host) (tree : SkillTreeData φ μ)
    (key : String) (st : TreeState) : Prop :=
  (st.fetched.map Prod.snd).Nodup ∧
  (∀ f, f ∈ st.downloaded ↔ f ∈ st.fetched.map Prod.snd) ∧
  (∀ e ∈ st.resolved, e.2 ∈ st.fetched.map Prod.snd) ∧
  (∀ e ∈ st.fetched, st.resolved.find? (fun x => x.2 == e.2) = some e) ∧
  (∀ e ∈ st.resolved, resolvedName host tree key e.1 = some e.2)

/-! ## Data of the worked examples -/

/-- The record type of the worked examples: the integer first field and a
label standing for the remaining fields. -/
abbrev DemoRecord := Int × String

/-- Three decoded records with the keys 5, 1, 3. -/
def demoDat : List DemoRecord := [(5, "e"), (1, "a"), (3, "c")]

/-- Thirteen decoded records, the first with key 2, the others with key 1. -/
def tieDat : List DemoRecord :=
  [ (2, "r0"), (1, "r1"), (1, "r2"), (1, "r3"), (1, "r4"), (1, "r5"), (1, "r6"),
    (1, "r7"), (1, "r8"), (1, "r9"), (1, "r10"), (1, "r11"), (1, "r12") ]

/-- A decoder for the worked examples: every table opens, every table but
`Stats.dat64` decodes to `demoDat`, `sort.Slice` is insertion sort and the
serialised form of a record set is the list of its keys. -/
def demoDecoder : Decoder DemoRecord :=
  { getBundleLoader := fun _ => true,
    loaderOpen := fun _ _ => some [],
    parseDat := fun _ base => if base = "Stats.dat64" then none else some demoDat,
    key := Prod.fst,
    sortSlice := insertionSortLessFunc,
    jsonMarshal := fun dat => some (dat.map (fun r => r.1.toNat)) }

/-- A host for the worked examples: every operation succeeds, a compressed
stream is its payload behind a marker byte sequence, every request is answered
with an empty body and every filename is its own URL path. -/
def demoHost : Host :=
  { stat := fun _ => true,
    mkdirAll := fun _ => .ok,
    openFile := fun _ => true,
    writeErr := fun _ => none,
    writeFile := fun _ => .ok,
    gzip := fun b => 31 :: 139 :: b,
    brotli := fun b => 206 :: b,
    httpGet := fun _ => some (some []),
    urlParsePath := fun s => some s }

/-- The filesystem without any file. -/
def emptyFS : FS := fun _ => none

/-- The decompressor matching `demoHost.gzip`; like a gzip reader it rejects a
stream without the marker. -/
def demoGunzip : Bytes → Option Bytes
  | 31 :: 139 :: b => some b
  | _ => none

/-- The decompressor matching `demoHost.brotli`. -/
def demoUnbrotli : Bytes → Option Bytes
  | 206 :: b => some b
  | _ => none

/-- A filesystem in which an earlier run over a larger `Mods` table left its
gzip copy: the marker and the seven payload bytes 1 to 7. -/
def staleFS : FS :=
  emptyFS.put "data/3.22/raw/Mods.json.gz" [31, 139, 1, 2, 3, 4, 5, 6, 7]

/-- Library routines for the worked examples: a zoom level is kept as its
formatted text, and every document parses to the given tree description. -/
def demoLib (tree : SkillTreeData String Unit) : TreeLib String Unit :=
  { jsonUnmarshal := fun _ => some tree,
    formatFloat := fun z => z }

/-- A tree description in which every sprite group offers one asset at the
highest zoom level, `frame` and `jewel` the same sheet. -/
def sharedFrameTree : SkillTreeData String Unit :=
  { ImageZoomLevels := ["0.1246", "0.2109", "0.2972", "0.3835"],
    Sprites := skillTreeSpriteGroups.map (fun g =>
      (g, [("0.3835",
        { Filename := if g = "frame" ∨ g = "jewel" then "ascendancy-frame.png" else g ++ ".png",
          rest := () })])) }

/-- A tree description without any sprite group. -/
def noSpritesTree : SkillTreeData String Unit :=
  { ImageZoomLevels := ["0.3835"], Sprites := [] }

/-- A tree description whose list of zoom levels is empty. -/
def noZoomTree : SkillTreeData String Unit :=
  { ImageZoomLevels := [], Sprites := sharedFrameTree.Sprites }

/-- A resolution map with the single key `1`, whose entry has no filename. -/
def unnamedGroup : List (String × AssetReference Unit) :=
  [("1", { Filename := "", rest := () })]

/-- A resolution map with the single key `1`. -/
def lowResGroup : List (String × AssetReference Unit) :=
  [("1", { Filename := "skills-1.jpg", rest := () })]

/-- The example host for a game directory without the bundle index. -/
def noIndexHost : Host :=
  { demoHost with stat := fun _ => false }

/-! ## Properties of the library routines -/

theorem keyLess_strictWeak {ρ : Type} (key : ρ → Int) : StrictWeak (keyLess key) := by
  refine ⟨?_, ?_, ?_⟩
  · intro a
    simp [keyLess]
  · intro a b c hab hbc
    simp only [keyLess, decide_eq_true_eq] at *
    omega
  · intro a b c hab hbc
    simp only [keyLess, decide_eq_false_iff_not] at *
    omega

theorem insertLess_perm {α : Type} (less : α → α → Bool) (x : α) (ys : List α) :
    (insertLess less x ys).Perm (x :: ys) := by
  induction ys with
  | nil => simp [insertLess]
  | cons y ys ih =>
    unfold insertLess
    split
    · exact List.Perm.refl _
    · exact (List.Perm.cons y ih).trans (List.Perm.swap x y ys)

theorem insertLess_sorted {α : Type} (less : α → α → Bool) (hless : StrictWeak less)
    (x : α) (ys : List α) (hys : ys.Pairwise (fun a b => less b a = false)) :
    (insertLess less x ys).Pairwise (fun a b => less b a = false) := by
  obtain ⟨hirr, htrans, hneg⟩ := hless
  induction ys with
  | nil => simp [insertLess]
  | cons y ys ih =>
    have hy := List.pairwise_cons.1 hys
    unfold insertLess
    split
    · rename_i hxy
      refine List.pairwise_cons.2 ⟨?_, hys⟩
      intro b hb
      have hyx : less y x = false := by
        cases hc : less y x
        · rfl
        · have := htrans x y x hxy hc
          rw [hirr x] at this
          exact absurd this (by simp)
      rcases List.mem_cons.1 hb with rfl | hb
      · exact hyx
      · exact hneg b _ x (hy.1 b hb) hyx
    · rename_i hxy
      have hxy : less x y = false := by simpa using hxy
      refine List.pairwise_cons.2 ⟨?_, ih hy.2⟩
      intro b hb
      rcases List.mem_cons.1 ((insertLess_perm less x ys).subset hb) with rfl | hb
      · exact hxy
      · exact hy.1 b hb

theorem foldl_insertLess_perm {α : Type} (less : α → α → Bool) (xs acc : List α) :
    (xs.foldl (fun acc x => insertLess less x acc) acc).Perm (xs.reverse ++ acc) := by
  induction xs generalizing acc with
  | nil => simp
  | cons x xs ih =>
    simp only [List.foldl_cons, List.reverse_cons, List.append_assoc, List.singleton_append]
    exact (ih _).trans (List.Perm.append_left _ (insertLess_perm less x acc))

theorem foldl_insertLess_sorted {α : Type} (less : α → α → Bool) (hless : StrictWeak less)
    (xs acc : List α) (hacc : acc.Pairwise (fun a b => less b a = false)) :
    (xs.foldl (fun acc x => insertLess less x acc) acc).Pairwise
      (fun a b => less b a = false) := by
  induction xs generalizing acc with
  | nil => simpa using hacc
  | cons x xs ih =>
    simp only [List.foldl_cons]
    exact ih _ (insertLess_sorted less hless x acc hacc)

/-- Insertion sort meets the contract of `sort.Slice`. -/
theorem insertionSortLessFunc_spec {α : Type} :
    SortSliceSpec (insertionSortLessFunc (α := α)) := by
  intro less hless xs
  constructor
  · have h := foldl_insertLess_perm less xs []
    simp only [List.append_nil] at h
    exact h.trans (List.reverse_perm xs)
  · exact foldl_insertLess_sorted less hless xs [] List.Pairwise.nil

theorem set_perm_of_getOpt {α : Type} (rest : List α) (i : Nat) (x y : α)
    (h : rest.get? i = some y) : (y :: rest.set i x).Perm (x :: rest) := by
  induction rest generalizing i with
  | nil => simp at h
  | cons r rs ih =>
    cases i with
    | zero =>
      have hr : r = y := by simpa using h
      subst hr
      exact List.Perm.swap x r rs
    | succ i =>
      have h1 : rs.get? i = some y := by simpa using h
      have h2 := ih i h1
      exact (List.Perm.swap r y _).trans (((List.Perm.cons r h2)).trans (List.Perm.swap x r rs))

theorem swapFront_perm {α : Type} (xs : List α) (p : Nat) : (swapFront xs p).Perm xs := by
  unfold swapFront
  split
  · exact List.Perm.refl _
  · exact List.Perm.refl _
  · split
    · exact List.Perm.refl _
    · rename_i y hy
      exact set_perm_of_getOpt _ _ _ _ hy

/-- The pivot-first sorter meets the contract of `sort.Slice`. -/
theorem pivotFirstSort_spec {α : Type} : SortSliceSpec (pivotFirstSort (α := α)) := by
  intro less hless xs
  have h := insertionSortLessFunc_spec less hless (swapFront xs (xs.length / 4 * 2))
  exact ⟨h.1.trans (swapFront_perm xs _), h.2⟩

/-- Under the contract of `sort.Slice` the sorted record set lists the keys in
non-decreasing order. -/
theorem sortedDat_pairwise {ρ : Type} (sortSlice : (ρ → ρ → Bool) → List ρ → List ρ)
    (hsort : SortSliceSpec sortSlice) (key : ρ → Int) (dat : List ρ) :
    (sortedDat sortSlice key dat).Pairwise (fun a b => key a ≤ key b) := by
  have h := (hsort (keyLess key) (keyLess_strictWeak key) dat).2
  refine List.Pairwise.imp ?_ h
  intro a b hba
  simp only [keyLess, decide_eq_false_iff_not] at hba
  omega

/-- Under the contract of `sort.Slice` the sorted record set is a rearrangement
of the decoded one. -/
theorem sortedDat_perm {ρ : Type} (sortSlice : (ρ → ρ → Bool) → List ρ → List ρ)
    (hsort : SortSliceSpec sortSlice) (key : ρ → Int) (dat : List ρ) :
    (sortedDat sortSlice key dat).Perm dat :=
  (hsort (keyLess key) (keyLess_strictWeak key) dat).1

theorem filter_key_eq_of_perm {ρ : Type} (key : ρ → Int) (l₁ l₂ : List ρ)
    (hperm : l₁.Perm l₂) (hnd : (l₂.map key).Nodup) (k : Int) :
    l₁.filter (fun r => key r == k) = l₂.filter (fun r => key r == k) := by
  have hsorted : ∀ l : List ρ, (l.map key).Nodup →
      (l.filter (fun r => key r == k)).Pairwise (fun a b => key a < key b) := by
    intro l hl
    have h1 : l.Pairwise (fun a b => key a ≠ key b) := List.pairwise_map.1 hl
    have h2 := List.Pairwise.sublist (List.filter_sublist l (p := fun r => key r == k)) h1
    refine List.Pairwise.imp_of_mem ?_ h2
    intro a b ha hb hab
    have hka : key a = k := by simpa using (List.mem_filter.1 ha).2
    have hkb : key b = k := by simpa using (List.mem_filter.1 hb).2
    exact absurd (hka.trans hkb.symm) hab
  haveI : IsAntisymm ρ (fun a b => key a < key b) :=
    ⟨fun a b hab hba => absurd hab (not_lt.2 (le_of_lt hba))⟩
  exact List.eq_of_perm_of_sorted (hperm.filter _)
    (hsorted l₁ ((hperm.map key).nodup_iff.2 hnd)) (hsorted l₂ hnd)

/-! ## The table exporter: ordering -/

/-- C1: for every record set `dat`, the sequence `extractRawData` serialises
(the slice as `sort.Slice` leaves it, for every `sort.Slice` that keeps its
documented contract) is in non-decreasing primary-key order: for all positions
`i < j` the first field of record `i` is at most the first field of record `j`. -/
theorem C1_serialized_sorted_by_key {ρ : Type} (dec : Decoder ρ)
    (hsort : SortSliceSpec dec.sortSlice) (dat : List ρ) (i j : Nat) (hij : i < j)
    (hj : j < (sortedDat dec.sortSlice dec.key dat).length) :
    dec.key ((sortedDat dec.sortSlice dec.key dat).get ⟨i, lt_trans hij hj⟩) ≤
      dec.key ((sortedDat dec.sortSlice dec.key dat).get ⟨j, hj⟩) :=
  List.pairwise_iff_get.1 (sortedDat_pairwise dec.sortSlice hsort dec.key dat)
    ⟨i, lt_trans hij hj⟩ ⟨j, hj⟩ hij

/-- C1 at the decoded keys 5, 1, 3 with insertion sort as `sort.Slice`:
position 0 of the serialised sequence carries a key no larger than position 2. -/
theorem C1_serialized_sorted_by_key_witness :
    demoDecoder.key ((sortedDat demoDecoder.sortSlice demoDecoder.key demoDat).get
        ⟨0, by decide⟩) ≤
      demoDecoder.key ((sortedDat demoDecoder.sortSlice demoDecoder.key demoDat).get
        ⟨2, by decide⟩) :=
  C1_serialized_sorted_by_key demoDecoder insertionSortLessFunc_spec demoDat 0 2
    (by decide) (by decide)

/-- C2: for every record set `dat`, the sequence `extractRawData` serialises is
a permutation of `dat`: every record occurs in it exactly as often as in
`dat`, unchanged, so the exported array has one element per decoded record. -/
theorem C2_serialized_is_permutation {ρ : Type} (dec : Decoder ρ)
    (hsort : SortSliceSpec dec.sortSlice) (dat : List ρ) :
    (sortedDat dec.sortSlice dec.key dat).Perm dat ∧
    (sortedDat dec.sortSlice dec.key dat).length = dat.length := by
  have h := sortedDat_perm dec.sortSlice hsort dec.key dat
  exact ⟨h, h.length_eq⟩

/-- C2 at the decoded keys 5, 1, 3: the serialised sequence is a permutation of
the three records and lists them with the keys 1, 3, 5. -/
theorem C2_serialized_is_permutation_witness :
    ((sortedDat demoDecoder.sortSlice demoDecoder.key demoDat).Perm demoDat ∧
      (sortedDat demoDecoder.sortSlice demoDecoder.key demoDat).length = demoDat.length) ∧
    sortedDat demoDecoder.sortSlice demoDecoder.key demoDat = [(1, "a"), (3, "c"), (5, "e")] :=
  ⟨C2_serialized_is_permutation demoDecoder insertionSortLessFunc_spec demoDat, by decide⟩

/-- C8, as stated, fails: `pivotFirstSort` keeps the documented contract of
`sort.Slice`, and on thirteen records of which twelve share the key 1 the
serialised sequence starts with the record the decoder returned seventh: the
twelve are not in the decoder's order. -/
theorem C8_stable_counterexample :
    SortSliceSpec (pivotFirstSort (α := DemoRecord)) ∧
    sortedDat pivotFirstSort Prod.fst tieDat =
      [ (1, "r6"), (1, "r1"), (1, "r2"), (1, "r3"), (1, "r4"), (1, "r5"), (1, "r7"),
        (1, "r8"), (1, "r9"), (1, "r10"), (1, "r11"), (1, "r12"), (2, "r0") ] ∧
    ¬ Stable Prod.fst tieDat (sortedDat pivotFirstSort Prod.fst tieDat) := by
  refine ⟨pivotFirstSort_spec, by decide, ?_⟩
  intro h
  have h1 := h 1
  revert h1
  decide

/-- C8, amended: the sort orders by primary key and by nothing else. For any two
routines keeping the contract of `sort.Slice` and any two arrangements of the
same decoded records the serialised key sequences agree; when the primary keys
are pairwise distinct the serialised sequences themselves agree, and the export
is stable. -/
theorem C8_order_determined_up_to_ties {ρ : Type}
    (sort₁ sort₂ : (ρ → ρ → Bool) → List ρ → List ρ)
    (h₁ : SortSliceSpec sort₁) (h₂ : SortSliceSpec sort₂) (key : ρ → Int)
    (dat dat' : List ρ) (hperm : dat'.Perm dat) :
    (sortedDat sort₁ key dat).map key = (sortedDat sort₂ key dat').map key ∧
    ((dat.map key).Nodup →
      sortedDat sort₁ key dat = sortedDat sort₂ key dat' ∧
      Stable key dat (sortedDat sort₁ key dat)) := by
  have p₁ := sortedDat_perm sort₁ h₁ key dat
  have p₂ := sortedDat_perm sort₂ h₂ key dat'
  have s₁ := sortedDat_pairwise sort₁ h₁ key dat
  have s₂ := sortedDat_pairwise sort₂ h₂ key dat'
  have p12 : (sortedDat sort₁ key dat).Perm (sortedDat sort₂ key dat') :=
    p₁.trans (hperm.symm.trans p₂.symm)
  refine ⟨?_, ?_⟩
  · exact List.eq_of_perm_of_sorted (r := fun a b : Int => a ≤ b) (p12.map key)
      (List.pairwise_map.2 s₁) (List.pairwise_map.2 s₂)
  · intro hnd
    have strict : ∀ l : List ρ, (l.map key).Nodup → l.Pairwise (fun a b => key a ≤ key b) →
        l.Pairwise (fun a b => key a < key b) := by
      intro l hl hs
      have hne : l.Pairwise (fun a b => key a ≠ key b) := List.pairwise_map.1 hl
      exact (hs.and hne).imp (fun h => lt_of_le_of_ne h.1 h.2)
    haveI : IsAntisymm ρ (fun a b => key a < key b) :=
      ⟨fun a b hab hba => absurd hab (not_lt.2 (le_of_lt hba))⟩
    refine ⟨?_, ?_⟩
    · exact List.eq_of_perm_of_sorted p12
        (strict _ ((p₁.map key).nodup_iff.2 hnd) s₁)
        (strict _ (((p₂.trans hperm).map key).nodup_iff.2 hnd) s₂)
    · intro k
      exact filter_key_eq_of_perm key _ _ p₁ hnd k

/-- C8, amended, at the decoded keys 5, 1, 3: insertion sort on the records as
decoded and the pivot-first sort on them in reverse order serialise the same
sequence. -/
theorem C8_order_determined_up_to_ties_witness :
    (sortedDat insertionSortLessFunc Prod.fst demoDat).map Prod.fst =
        (sortedDat pivotFirstSort Prod.fst demoDat.reverse).map Prod.fst ∧
    ((demoDat.map Prod.fst).Nodup →
      sortedDat insertionSortLessFunc Prod.fst demoDat =
          sortedDat pivotFirstSort Prod.fst demoDat.reverse ∧
      Stable Prod.fst demoDat (sortedDat insertionSortLessFunc Prod.fst demoDat)) :=
  C8_order_determined_up_to_ties insertionSortLessFunc pivotFirstSort
    insertionSortLessFunc_spec pivotFirstSort_spec Prod.fst demoDat demoDat.reverse
    (List.reverse_perm demoDat)

/-! ## The table exporter: output paths and the effect on the filesystem -/

theorem outPath_name_inj (gameVersion dir a b : String)
    (h : outPath gameVersion dir a = outPath gameVersion dir b) : a = b := by
  have h1 := congrArg String.data h
  simp only [outPath, String.data_append] at h1
  exact String.ext (List.append_cancel_left h1)

theorem gz_name_ne_br_name (a b : String) : a ++ ".json.gz" ≠ b ++ ".json.br" := by
  intro h
  have h1 := congrArg String.data h
  simp only [String.data_append] at h1
  have h2 := List.append_inj_right' h1 (by rfl)
  revert h2
  decide

theorem name_suffix_inj (a b s : String) (h : a ++ s = b ++ s) : a = b := by
  have h1 := congrArg String.data h
  simp only [String.data_append] at h1
  exact String.ext (List.append_cancel_right h1)

theorem outPathGzip_ne_outPathBrotli (gameVersion f g : String) :
    outPathGzip gameVersion f ≠ outPathBrotli gameVersion g := by
  intro h
  exact gz_name_ne_br_name _ _ (outPath_name_inj _ _ _ _ h)

theorem outPathGzip_inj (gameVersion f g : String)
    (h : outPathGzip gameVersion f = outPathGzip gameVersion g) :
    tableBase f = tableBase g :=
  name_suffix_inj _ _ _ (outPath_name_inj _ _ _ _ h)

theorem outPathBrotli_inj (gameVersion f g : String)
    (h : outPathBrotli gameVersion f = outPathBrotli gameVersion g) :
    tableBase f = tableBase g :=
  name_suffix_inj _ _ _ (outPath_name_inj _ _ _ _ h)

/-- The tables of the catalog have pairwise distinct base names. -/
theorem filesToExport_bases_nodup : (filesToExport.map tableBase).Nodup := by
  decide

theorem writeStream_frame (host : Host) (p : String) (stream : Bytes) (fs : FS) (q : String)
    (hq : q ≠ p) : (writeStream host p stream fs).2 q = fs q := by
  unfold writeStream
  split
  · split <;> simp [FS.writeAt, hq]
  · rfl

theorem writeStream_status (host : Host) (p : String) (stream : Bytes) (fs : FS) :
    (writeStream host p stream fs).1 = .completed ∨
      (writeStream host p stream fs).1 = .exit1 := by
  unfold writeStream
  split
  · split <;> simp
  · simp

theorem writeDual_frame (host : Host) (dir gzPath brPath : String) (b : Bytes) (fs : FS)
    (q : String) (hgz : q ≠ gzPath) (hbr : q ≠ brPath) :
    (writeDual host dir gzPath brPath b fs).2 q = fs q := by
  have hg := writeStream_frame host gzPath (host.gzip b) fs q hgz
  unfold writeDual
  split
  · rfl
  · simp only
    split
    · rw [writeStream_frame host brPath _ _ q hbr]
      exact hg
    · exact hg

theorem writeDual_status (host : Host) (dir gzPath brPath : String) (b : Bytes) (fs : FS) :
    (writeDual host dir gzPath brPath b fs).1 = .completed ∨
      (writeDual host dir gzPath brPath b fs).1 = .exit1 := by
  unfold writeDual
  split
  · simp
  · simp only
    split
    · exact writeStream_status _ _ _ _
    · exact writeStream_status _ _ _ _

theorem exportTable_frame {ρ : Type} (dec : Decoder ρ) (host : Host)
    (gamePath gameVersion file : String) (fs : FS) (q : String)
    (hgz : q ≠ outPathGzip gameVersion file) (hbr : q ≠ outPathBrotli gameVersion file) :
    (exportTable dec host gamePath gameVersion file fs).2 q = fs q := by
  unfold exportTable
  split
  · rfl
  · split
    · rfl
    · split
      · rfl
      · exact writeDual_frame _ _ _ _ _ _ _ hgz hbr

theorem exportTable_status {ρ : Type} (dec : Decoder ρ) (host : Host)
    (gamePath gameVersion file : String) (fs : FS) :
    (exportTable dec host gamePath gameVersion file fs).1 = .completed ∨
      (exportTable dec host gamePath gameVersion file fs).1 = .exit1 := by
  unfold exportTable
  split
  · simp
  · split
    · simp
    · split
      · simp
      · exact writeDual_status _ _ _ _ _ _

theorem exportLoop_cons {ρ : Type} (dec : Decoder ρ) (host : Host)
    (gamePath gameVersion file : String) (rest : List String) (fs : FS) :
    exportLoop dec host gamePath gameVersion (file :: rest) fs =
      if (exportTable dec host gamePath gameVersion file fs).1 = .completed then
        exportLoop dec host gamePath gameVersion rest
          (exportTable dec host gamePath gameVersion file fs).2
      else exportTable dec host gamePath gameVersion file fs := by
  rw [exportLoop]
  split
  · rename_i fs1 heq
    simp [heq]
  · rename_i r hne
    have : (exportTable dec host gamePath gameVersion file fs).1 ≠ .completed := by
      intro hc
      exact hne (exportTable dec host gamePath gameVersion file fs).2 (Prod.ext hc rfl)
    simp [this]

theorem exportLoop_status {ρ : Type} (dec : Decoder ρ) (host : Host)
    (gamePath gameVersion : String) (files : List String) (fs : FS) :
    (exportLoop dec host gamePath gameVersion files fs).1 = .completed ∨
      (exportLoop dec host gamePath gameVersion files fs).1 = .exit1 := by
  induction files generalizing fs with
  | nil => simp [exportLoop]
  | cons file rest ih =>
    rw [exportLoop_cons]
    split
    · exact ih _
    · exact exportTable_status _ _ _ _ _ _

theorem exportLoop_frame {ρ : Type} (dec : Decoder ρ) (host : Host)
    (gamePath gameVersion : String) (files : List String) (fs : FS) (q : String)
    (hq : ∀ f ∈ files, q ≠ outPathGzip gameVersion f ∧ q ≠ outPathBrotli gameVersion f) :
    (exportLoop dec host gamePath gameVersion files fs).2 q = fs q := by
  induction files generalizing fs with
  | nil => simp [exportLoop]
  | cons file rest ih =>
    have hf := hq file (List.mem_cons_self _ _)
    have hrest : ∀ f ∈ rest, q ≠ outPathGzip gameVersion f ∧ q ≠ outPathBrotli gameVersion f :=
      fun f hf => hq f (List.mem_cons_of_mem _ hf)
    rw [exportLoop_cons]
    split
    · rw [ih _ hrest]
      exact exportTable_frame _ _ _ _ _ _ _ hf.1 hf.2
    · exact exportTable_frame _ _ _ _ _ _ _ hf.1 hf.2

theorem exportLoop_append {ρ : Type} (dec : Decoder ρ) (host : Host)
    (gamePath gameVersion : String) (pre rest : List String) (fs : FS) :
    exportLoop dec host gamePath gameVersion (pre ++ rest) fs =
      if (exportLoop dec host gamePath gameVersion pre fs).1 = .completed then
        exportLoop dec host gamePath gameVersion rest
          (exportLoop dec host gamePath gameVersion pre fs).2
      else exportLoop dec host gamePath gameVersion pre fs := by
  induction pre generalizing fs with
  | nil => simp [exportLoop]
  | cons file pre ih =>
    rw [List.cons_append, exportLoop_cons, exportLoop_cons]
    split
    · exact ih _
    · rename_i hne
      simp [hne]

theorem exportTable_decode_failure {ρ : Type} (dec : Decoder ρ) (host : Host)
    (gamePath gameVersion file : String) (fs : FS)
    (hfail : ∀ data, dec.loaderOpen gamePath file = some data →
      dec.parseDat data (pathBase file) = none) :
    exportTable dec host gamePath gameVersion file fs = (.exit1, fs) := by
  unfold exportTable
  split
  · rfl
  · rename_i data hopen
    rw [hfail data hopen]

/-- A loop that reaches an entry which does not decode stops there: the status
is 1 and the filesystem is the one the entries before it left. -/
theorem exportLoop_decode_failure {ρ : Type} (dec : Decoder ρ) (host : Host)
    (gamePath gameVersion file : String) (pre post : List String) (fs : FS)
    (hfail : ∀ data, dec.loaderOpen gamePath file = some data →
      dec.parseDat data (pathBase file) = none) :
    (exportLoop dec host gamePath gameVersion (pre ++ file :: post) fs).1 = .exit1 ∧
    (exportLoop dec host gamePath gameVersion (pre ++ file :: post) fs).2 =
      (exportLoop dec host gamePath gameVersion pre fs).2 := by
  rw [exportLoop_append]
  split
  · rw [exportLoop_cons, exportTable_decode_failure dec host gamePath gameVersion file _ hfail]
    simp
  · rename_i hne
    rcases exportLoop_status dec host gamePath gameVersion pre fs with h | h
    · exact absurd h hne
    · exact ⟨h, rfl⟩

theorem extractRawDataOn_decode_failure {ρ : Type} (dec : Decoder ρ) (host : Host)
    (gamePath gameVersion file : String) (pre post : List String) (fs : FS)
    (hfail : ∀ data, dec.loaderOpen gamePath file = some data →
      dec.parseDat data (pathBase file) = none) :
    (extractRawDataOn (pre ++ file :: post) dec host gamePath gameVersion fs).1 = .exit1 ∧
    (extractRawDataOn (pre ++ file :: post) dec host gamePath gameVersion fs).2 =
      (extractRawDataOn pre dec host gamePath gameVersion fs).2 := by
  unfold extractRawDataOn
  split
  · split
    · exact exportLoop_decode_failure dec host gamePath gameVersion file pre post fs hfail
    · exact ⟨rfl, rfl⟩
  · exact ⟨rfl, rfl⟩

theorem extractRawDataOn_frame {ρ : Type} (catalog : List String) (dec : Decoder ρ)
    (host : Host) (gamePath gameVersion : String) (fs : FS) (q : String)
    (hq : ∀ f ∈ catalog, q ≠ outPathGzip gameVersion f ∧ q ≠ outPathBrotli gameVersion f) :
    (extractRawDataOn catalog dec host gamePath gameVersion fs).2 q = fs q := by
  unfold extractRawDataOn
  split
  · split
    · exact exportLoop_frame dec host gamePath gameVersion catalog fs q hq
    · rfl
  · rfl

/-- The output paths of a table differ from those of every table with another
base name. -/
theorem outPaths_disjoint (gameVersion f g : String) (hne : tableBase f ≠ tableBase g) :
    (outPathGzip gameVersion f ≠ outPathGzip gameVersion g ∧
      outPathGzip gameVersion f ≠ outPathBrotli gameVersion g) ∧
    (outPathBrotli gameVersion f ≠ outPathGzip gameVersion g ∧
      outPathBrotli gameVersion f ≠ outPathBrotli gameVersion g) :=
  ⟨⟨fun h => hne (outPathGzip_inj _ _ _ h), outPathGzip_ne_outPathBrotli _ _ _⟩,
    ⟨fun h => outPathGzip_ne_outPathBrotli _ _ _ h.symm,
      fun h => hne (outPathBrotli_inj _ _ _ h)⟩⟩

/-! ## The table exporter: failure of a decode -/

/-- C7: let the catalog be `pre ++ file :: post` and let decoding of `file` fail
(it opens, and `ParseDat` returns an error). Then `extractRawData` ends with exit
status 1; the filesystem it leaves is the one the run over the entries before
`file` alone leaves, so whatever was written for them stays as written; and the
output paths of `file` and of every later entry hold what they held before the
run: nothing is written for them. (Nothing needs to be assumed about the
entries before `file`: if one of them fails, the run has stopped earlier.) -/
theorem C7_decode_failure_aborts {ρ : Type} (dec : Decoder ρ) (host : Host)
    (gamePath gameVersion file : String) (pre post : List String) (fs : FS) (data : Bytes)
    (hcat : filesToExport = pre ++ file :: post)
    (hopen : dec.loaderOpen gamePath file = some data)
    (hparse : dec.parseDat data (pathBase file) = none) :
    (extractRawData dec host gamePath gameVersion fs).1 = .exit1 ∧
    (extractRawData dec host gamePath gameVersion fs).1.code = 1 ∧
    (extractRawData dec host gamePath gameVersion fs).2 =
      (extractRawDataOn pre dec host gamePath gameVersion fs).2 ∧
    ∀ f ∈ file :: post,
      (extractRawData dec host gamePath gameVersion fs).2 (outPathGzip gameVersion f) =
          fs (outPathGzip gameVersion f) ∧
      (extractRawData dec host gamePath gameVersion fs).2 (outPathBrotli gameVersion f) =
          fs (outPathBrotli gameVersion f) := by
  have hfail : ∀ d, dec.loaderOpen gamePath file = some d →
      dec.parseDat d (pathBase file) = none := by
    intro d hd
    rw [hopen] at hd
    cases hd
    exact hparse
  have hrun := extractRawDataOn_decode_failure dec host gamePath gameVersion file pre post fs hfail
  have hnd := filesToExport_bases_nodup
  rw [hcat, List.map_append, List.nodup_append] at hnd
  unfold extractRawData
  rw [hcat]
  refine ⟨hrun.1, by rw [hrun.1]; rfl, hrun.2, ?_⟩
  intro f hf
  have hdisj : ∀ g ∈ pre, tableBase f ≠ tableBase g := by
    intro g hg heq
    have h1 : tableBase g ∈ pre.map tableBase := List.mem_map_of_mem tableBase hg
    have h2 : tableBase f ∈ (file :: post).map tableBase := List.mem_map_of_mem tableBase hf
    rw [heq] at h2
    exact hnd.2.2 h1 h2
  rw [hrun.2]
  constructor
  · apply extractRawDataOn_frame
    intro g hg
    exact (outPaths_disjoint gameVersion f g (hdisj g hg)).1
  · apply extractRawDataOn_frame
    intro g hg
    exact (outPaths_disjoint gameVersion f g (hdisj g hg)).2

/-- C7 at a decode failure of `Data/Stats.dat64`, every other table decoding to
the keys 5, 1, 3: the run ends with status 1, the table before it in the
catalog has its gzip copy on disk, `Stats` and the table after it have none. -/
theorem C7_decode_failure_aborts_witness :
    ((extractRawData demoDecoder demoHost "game" "3.22" emptyFS).1 = .exit1 ∧
      (extractRawData demoDecoder demoHost "game" "3.22" emptyFS).1.code = 1 ∧
      (extractRawData demoDecoder demoHost "game" "3.22" emptyFS).2 =
        (extractRawDataOn (filesToExport.take 16) demoDecoder demoHost "game" "3.22"
          emptyFS).2 ∧
      ∀ f ∈ "Data/Stats.dat64" :: filesToExport.drop 17,
        (extractRawData demoDecoder demoHost "game" "3.22" emptyFS).2
            (outPathGzip "3.22" f) = emptyFS (outPathGzip "3.22" f) ∧
        (extractRawData demoDecoder demoHost "game" "3.22" emptyFS).2
            (outPathBrotli "3.22" f) = emptyFS (outPathBrotli "3.22" f)) ∧
    (extractRawData demoDecoder demoHost "game" "3.22" emptyFS).2
        "data/3.22/raw/BaseItemTypes.json.gz" = some [31, 139, 1, 3, 5] ∧
    (extractRawData demoDecoder demoHost "game" "3.22" emptyFS).2
        "data/3.22/raw/Stats.json.gz" = none ∧
    (extractRawData demoDecoder demoHost "game" "3.22" emptyFS).2
        "data/3.22/raw/AlternatePassiveSkills.json.gz" = none :=
  ⟨C7_decode_failure_aborts demoDecoder demoHost "game" "3.22" "Data/Stats.dat64"
      (filesToExport.take 16) (filesToExport.drop 17) emptyFS [] (by decide) rfl (by decide),
    by decide, by decide, by decide⟩

/-! ## The table exporter: the two compressed copies -/

theorem overwrite_of_length_le (old stream : Bytes) (h : old.length ≤ stream.length) :
    overwrite old stream = stream := by
  unfold overwrite
  rw [List.drop_eq_nil_of_le h, List.append_nil]

theorem overwrite_ne_of_length_lt (old stream : Bytes) (h : stream.length < old.length) :
    overwrite old stream ≠ stream := by
  intro heq
  have hlen := congrArg List.length heq
  simp only [overwrite, List.length_append, List.length_drop] at hlen
  omega

theorem writeStream_completed (host : Host) (p : String) (stream : Bytes) (fs : FS)
    (h : (writeStream host p stream fs).1 = .completed) :
    (writeStream host p stream fs).2 = fs.writeAt p stream := by
  unfold writeStream at h ⊢
  cases hopen : host.openFile p <;> cases hw : host.writeErr p <;>
    simp [hopen, hw] at h ⊢

theorem writeDual_completed (host : Host) (dir gzPath brPath : String) (b : Bytes) (fs : FS)
    (h : (writeDual host dir gzPath brPath b fs).1 = .completed) :
    (writeDual host dir gzPath brPath b fs).2 =
      (fs.writeAt gzPath (host.gzip b)).writeAt brPath (host.brotli b) := by
  unfold writeDual at h ⊢
  split at h
  · simp at h
  · rename_i hm
    simp only [hm, if_false] at h ⊢
    split at h
    · rename_i hc
      simp only [hc, if_true]
      rw [writeStream_completed host brPath (host.brotli b) _ h,
        writeStream_completed host gzPath (host.gzip b) fs hc]
    · rename_i hc
      exact absurd h hc

theorem exportTable_completed {ρ : Type} (dec : Decoder ρ) (host : Host)
    (gamePath gameVersion file : String) (fs : FS) (data : Bytes) (dat : List ρ) (b : Bytes)
    (hopen : dec.loaderOpen gamePath file = some data)
    (hparse : dec.parseDat data (pathBase file) = some dat)
    (hjson : dec.jsonMarshal (sortedDat dec.sortSlice dec.key dat) = some b)
    (hrun : (exportTable dec host gamePath gameVersion file fs).1 = .completed) :
    (exportTable dec host gamePath gameVersion file fs).2 =
      (fs.writeAt (outPathGzip gameVersion file) (host.gzip b)).writeAt
        (outPathBrotli gameVersion file) (host.brotli b) := by
  unfold exportTable at hrun ⊢
  simp only [hopen, hparse, hjson] at hrun ⊢
  exact writeDual_completed _ _ _ _ _ _ hrun

/-- What the two output files of a table hold after its export has completed:
the gzip stream and the brotli stream of the same payload `b`, each written
over the start of whatever the file held before. -/
theorem exportTable_files {ρ : Type} (dec : Decoder ρ) (host : Host)
    (gamePath gameVersion file : String) (fs : FS) (data : Bytes) (dat : List ρ) (b : Bytes)
    (hopen : dec.loaderOpen gamePath file = some data)
    (hparse : dec.parseDat data (pathBase file) = some dat)
    (hjson : dec.jsonMarshal (sortedDat dec.sortSlice dec.key dat) = some b)
    (hrun : (exportTable dec host gamePath gameVersion file fs).1 = .completed) :
    (exportTable dec host gamePath gameVersion file fs).2 (outPathGzip gameVersion file) =
        some (overwrite ((fs (outPathGzip gameVersion file)).getD []) (host.gzip b)) ∧
    (exportTable dec host gamePath gameVersion file fs).2 (outPathBrotli gameVersion file) =
        some (overwrite ((fs (outPathBrotli gameVersion file)).getD []) (host.brotli b)) := by
  rw [exportTable_completed dec host gamePath gameVersion file fs data dat b hopen hparse hjson hrun]
  have hne := outPathGzip_ne_outPathBrotli gameVersion file file
  constructor
  · simp [FS.writeAt, hne]
  · simp [FS.writeAt, hne.symm]

/-- The two copies of a table written to fresh output paths: when the export of
`file` completes with payload `b` and neither output path held a file longer
than the new stream, the gzip file holds exactly the gzip stream of `b` and the
brotli file exactly the brotli stream of the same `b`; the two paths are the
same stem followed by `.gz` and `.br`; and for every pair of decompressors that
invert the two codecs both files decompress to `b`. -/
theorem dual_copies_round_trip {ρ : Type} (dec : Decoder ρ) (host : Host)
    (gamePath gameVersion file : String) (fs : FS) (data : Bytes) (dat : List ρ) (b : Bytes)
    (gunzip unbrotli : Bytes → Option Bytes)
    (hgunzip : ∀ x, gunzip (host.gzip x) = some x)
    (hunbrotli : ∀ x, unbrotli (host.brotli x) = some x)
    (hopen : dec.loaderOpen gamePath file = some data)
    (hparse : dec.parseDat data (pathBase file) = some dat)
    (hjson : dec.jsonMarshal (sortedDat dec.sortSlice dec.key dat) = some b)
    (hrun : (exportTable dec host gamePath gameVersion file fs).1 = .completed)
    (hgz : ((fs (outPathGzip gameVersion file)).getD []).length ≤ (host.gzip b).length)
    (hbr : ((fs (outPathBrotli gameVersion file)).getD []).length ≤ (host.brotli b).length) :
    (exportTable dec host gamePath gameVersion file fs).2 (outPathGzip gameVersion file) =
        some (host.gzip b) ∧
    (exportTable dec host gamePath gameVersion file fs).2 (outPathBrotli gameVersion file) =
        some (host.brotli b) ∧
    ((exportTable dec host gamePath gameVersion file fs).2 (outPathGzip gameVersion file)).bind
        gunzip = some b ∧
    ((exportTable dec host gamePath gameVersion file fs).2 (outPathBrotli gameVersion file)).bind
        unbrotli = some b ∧
    outPathGzip gameVersion file =
        "data/" ++ gameVersion ++ "/raw/" ++ tableBase file ++ ".json" ++ ".gz" ∧
    outPathBrotli gameVersion file =
        "data/" ++ gameVersion ++ "/raw/" ++ tableBase file ++ ".json" ++ ".br" := by
  have h := exportTable_files dec host gamePath gameVersion file fs data dat b hopen hparse
    hjson hrun
  rw [overwrite_of_length_le _ _ hgz] at h
  rw [overwrite_of_length_le _ _ hbr] at h
  refine ⟨h.1, h.2, ?_, ?_, ?_, ?_⟩
  · rw [h.1]
    exact hgunzip b
  · rw [h.2]
    exact hunbrotli b
  · apply String.ext
    simp [outPathGzip, outPath, String.data_append]
  · apply String.ext
    simp [outPathBrotli, outPath, String.data_append]

/-- The two copies of the `Mods` table on an empty output tree: both files
decompress to the serialised keys 1, 3, 5. -/
theorem dual_copies_round_trip_witness :
    (exportTable demoDecoder demoHost "game" "3.22" "Data/Mods.dat64" emptyFS).2
        (outPathGzip "3.22" "Data/Mods.dat64") = some (demoHost.gzip [1, 3, 5]) ∧
    (exportTable demoDecoder demoHost "game" "3.22" "Data/Mods.dat64" emptyFS).2
        (outPathBrotli "3.22" "Data/Mods.dat64") = some (demoHost.brotli [1, 3, 5]) ∧
    ((exportTable demoDecoder demoHost "game" "3.22" "Data/Mods.dat64" emptyFS).2
        (outPathGzip "3.22" "Data/Mods.dat64")).bind demoGunzip = some [1, 3, 5] ∧
    ((exportTable demoDecoder demoHost "game" "3.22" "Data/Mods.dat64" emptyFS).2
        (outPathBrotli "3.22" "Data/Mods.dat64")).bind demoUnbrotli = some [1, 3, 5] ∧
    outPathGzip "3.22" "Data/Mods.dat64" =
        "data/" ++ "3.22" ++ "/raw/" ++ tableBase "Data/Mods.dat64" ++ ".json" ++ ".gz" ∧
    outPathBrotli "3.22" "Data/Mods.dat64" =
        "data/" ++ "3.22" ++ "/raw/" ++ tableBase "Data/Mods.dat64" ++ ".json" ++ ".br" :=
  dual_copies_round_trip demoDecoder demoHost "game" "3.22" "Data/Mods.dat64" emptyFS []
    demoDat [1, 3, 5] demoGunzip demoUnbrotli (fun _ => rfl) (fun _ => rfl) rfl (by decide)
    (by decide) (by decide) (by decide) (by decide)

/-- C9 at a failing input: the export of `Mods` (payload: the keys 1, 3, 5) over
an output tree in which `Mods.json.gz` already holds a longer stream completes,
hands the same payload to both writers, and leaves a gzip file that is the new
stream followed by the last four bytes of the old file. That file is not the
gzip stream of the payload and does not decompress to it, while the brotli file
does: the files are opened without `O_TRUNC`. -/
theorem C9_stale_tail_survives :
    (exportTable demoDecoder demoHost "game" "3.22" "Data/Mods.dat64" staleFS).1 = .completed ∧
    demoDecoder.jsonMarshal (sortedDat demoDecoder.sortSlice demoDecoder.key demoDat) =
        some [1, 3, 5] ∧
    staleFS "data/3.22/raw/Mods.json.gz" = some [31, 139, 1, 2, 3, 4, 5, 6, 7] ∧
    (exportTable demoDecoder demoHost "game" "3.22" "Data/Mods.dat64" staleFS).2
        "data/3.22/raw/Mods.json.gz" = some (demoHost.gzip [1, 3, 5] ++ [4, 5, 6, 7]) ∧
    ((exportTable demoDecoder demoHost "game" "3.22" "Data/Mods.dat64" staleFS).2
        "data/3.22/raw/Mods.json.gz").bind demoGunzip = some [1, 3, 5, 4, 5, 6, 7] ∧
    ((exportTable demoDecoder demoHost "game" "3.22" "Data/Mods.dat64" staleFS).2
        "data/3.22/raw/Mods.json.br").bind demoUnbrotli = some [1, 3, 5] := by
  refine ⟨by decide, by decide, by decide, by decide, by decide, by decide⟩

/-- Whenever the export of a table completes over an output path that holds a
file longer than the new gzip stream, the gzip file keeps the old tail and is
not the gzip stream of the payload. -/
theorem stale_gzip_tail_survives {ρ : Type} (dec : Decoder ρ) (host : Host)
    (gamePath gameVersion file : String) (fs : FS) (data : Bytes) (dat : List ρ) (b : Bytes)
    (hopen : dec.loaderOpen gamePath file = some data)
    (hparse : dec.parseDat data (pathBase file) = some dat)
    (hjson : dec.jsonMarshal (sortedDat dec.sortSlice dec.key dat) = some b)
    (hrun : (exportTable dec host gamePath gameVersion file fs).1 = .completed)
    (hlong : (host.gzip b).length < ((fs (outPathGzip gameVersion file)).getD []).length) :
    (exportTable dec host gamePath gameVersion file fs).2 (outPathGzip gameVersion file) ≠
      some (host.gzip b) := by
  rw [(exportTable_files dec host gamePath gameVersion file fs data dat b hopen hparse hjson
    hrun).1]
  intro h
  exact overwrite_ne_of_length_lt _ _ hlong (Option.some.inj h)

/-! ## The tree asset synchroniser: selection of the asset reference -/

theorem lookup_of_mem_nodupKeys {ν : Type} (m : List (String × ν)) (k : String) (a : ν)
    (hnd : NodupKeys m) (hmem : (k, a) ∈ m) : m.lookup k = some a := by
  induction m with
  | nil => cases hmem
  | cons e m ih =>
    obtain ⟨k', a'⟩ := e
    have hnd' : k' ∉ m.map Prod.fst ∧ NodupKeys m := by
      simpa [NodupKeys] using hnd
    rcases List.mem_cons.1 hmem with heq | hmem'
    · cases heq
      simp [List.lookup]
    · have hne : k ≠ k' := by
        intro h
        subst h
        exact hnd'.1 (List.mem_map_of_mem Prod.fst hmem')
      have hbeq : (k == k') = false := by simpa using hne
      simp only [List.lookup, hbeq]
      exact ih hnd'.2 hmem'

theorem lookup_none_of_not_key {ν : Type} (m : List (String × ν)) (k : String)
    (h : k ∉ m.map Prod.fst) : m.lookup k = none := by
  induction m with
  | nil => rfl
  | cons e m ih =>
    obtain ⟨k', a'⟩ := e
    have h' : k ≠ k' ∧ k ∉ m.map Prod.fst := by
      simpa [not_or] using h
    have hbeq : (k == k') = false := by simpa using h'.1
    simp only [List.lookup, hbeq]
    exact ih h'.2

theorem selectAsset_preferred {μ : Type} [Inhabited μ] (key : String)
    (m : List (String × AssetReference μ)) (a : AssetReference μ)
    (hnd : NodupKeys m) (hmem : (key, a) ∈ m) (hfile : a.Filename ≠ "") :
    selectAsset key m = a := by
  unfold selectAsset mapIndex
  rw [lookup_of_mem_nodupKeys m key a hnd hmem]
  simp [hfile]

theorem selectAsset_fallback {μ : Type} [Inhabited μ] (key : String)
    (e : String × AssetReference μ) (m : List (String × AssetReference μ))
    (h : key ∉ (e :: m).map Prod.fst) : selectAsset key (e :: m) = e.2 := by
  unfold selectAsset mapIndex
  rw [lookup_none_of_not_key (e :: m) key h]
  simp [AssetReference.zero]

theorem selectAsset_nil {μ : Type} [Inhabited μ] (key : String) :
    selectAsset key ([] : List (String × AssetReference μ)) = AssetReference.zero := by
  simp [selectAsset, mapIndex, AssetReference.zero]

/-- C3: let the last element of `ImageZoomLevels` be `z` and let the resolution
map of a sprite group hold the entry `a` under the key `z` formatted as a
string, with a non-empty filename. Then the loop of `downloadTreeData` runs with
that key, and the asset reference it selects for the group is exactly `a`, in
whichever order the map is iterated: no fallback entry is used. -/
theorem C3_preferred_entry_selected {φ μ : Type} [Inhabited μ] (host : Host)
    (lib : TreeLib φ μ) (tree : SkillTreeData φ μ) (z : φ) (group : String)
    (a : AssetReference μ) (repoVersionBase gameVersion : String) (fs : FS)
    (hlast : tree.ImageZoomLevels.getLast? = some z)
    (hnd : NodupKeys (mapIndex [] tree.Sprites group))
    (hmem : (lib.formatFloat z, a) ∈ mapIndex [] tree.Sprites group)
    (hfile : a.Filename ≠ "") :
    syncSprites host lib tree repoVersionBase gameVersion fs =
      syncLoop host tree (lib.formatFloat z) repoVersionBase gameVersion
        skillTreeSpriteGroups (TreeState.init fs) ∧
    selectAsset (lib.formatFloat z) (mapIndex [] tree.Sprites group) = a ∧
    (∀ order : List (String × AssetReference μ),
      order.Perm (mapIndex [] tree.Sprites group) →
      selectAsset (lib.formatFloat z) order = a) ∧
    resolvedName host tree (lib.formatFloat z) group =
      (host.urlParsePath a.Filename).map pathBase := by
  have hsel := selectAsset_preferred (lib.formatFloat z) _ a hnd hmem hfile
  refine ⟨?_, hsel, ?_, ?_⟩
  · unfold syncSprites
    rw [hlast]
  · intro order hperm
    refine selectAsset_preferred (lib.formatFloat z) order a ?_ (hperm.mem_iff.2 hmem) hfile
    exact ((hperm.map Prod.fst).nodup_iff).2 hnd
  · unfold resolvedName
    rw [hsel]

/-- C3 on a tree description whose `frame` group offers `ascendancy-frame.png`
at the highest zoom level `0.3835`. -/
theorem C3_preferred_entry_selected_witness :
    syncSprites demoHost (demoLib sharedFrameTree) sharedFrameTree "base" "3.22" emptyFS =
      syncLoop demoHost sharedFrameTree ((demoLib sharedFrameTree).formatFloat "0.3835")
        "base" "3.22" skillTreeSpriteGroups (TreeState.init emptyFS) ∧
    selectAsset ((demoLib sharedFrameTree).formatFloat "0.3835")
        (mapIndex [] sharedFrameTree.Sprites "frame") =
      { Filename := "ascendancy-frame.png", rest := () } ∧
    (∀ order : List (String × AssetReference Unit),
      order.Perm (mapIndex [] sharedFrameTree.Sprites "frame") →
      selectAsset ((demoLib sharedFrameTree).formatFloat "0.3835") order =
        { Filename := "ascendancy-frame.png", rest := () }) ∧
    resolvedName demoHost sharedFrameTree ((demoLib sharedFrameTree).formatFloat "0.3835")
        "frame" =
      (demoHost.urlParsePath
        (AssetReference.Filename (μ := Unit)
          { Filename := "ascendancy-frame.png", rest := () })).map pathBase :=
  C3_preferred_entry_selected demoHost (demoLib sharedFrameTree) sharedFrameTree "0.3835"
    "frame" { Filename := "ascendancy-frame.png", rest := () } "base" "3.22" emptyFS
    (by decide) (by decide) (by decide) (by decide)

/-- C4, as stated, fails: the resolution map `unnamedGroup` lacks the preferred
key `2.6700000762939453` and has one other entry, and the asset reference
selected from it is an entry of the map whose filename is empty. -/
theorem C4_fallback_counterexample :
    "2.6700000762939453" ∉ unnamedGroup.map Prod.fst ∧
    unnamedGroup ≠ [] ∧
    NodupKeys unnamedGroup ∧
    (selectAsset "2.6700000762939453" unnamedGroup).Filename = "" := by
  refine ⟨by decide, by decide, by decide, by decide⟩

/-- C4, amended: let the resolution map `m` of a sprite group lack the preferred
key and have at least one entry. For every iteration order `order` of `m` the
asset reference selected is the first entry the iteration yields, which is an
entry of `m`; selecting it is a total step without error outcome; and its
filename is non-empty provided every entry of `m` has a non-empty filename. -/
theorem C4_fallback_selects_map_entry {μ : Type} [Inhabited μ] (key : String)
    (m order : List (String × AssetReference μ))
    (hperm : order.Perm m) (habsent : key ∉ m.map Prod.fst) (hne : m ≠ []) :
    (∃ e ∈ m, order.head? = some e ∧ selectAsset key order = e.2) ∧
    ((∀ e ∈ m, e.2.Filename ≠ "") → (selectAsset key order).Filename ≠ "") := by
  have habsent' : key ∉ order.map Prod.fst := by
    intro h
    exact habsent ((hperm.map Prod.fst).mem_iff.1 h)
  cases order with
  | nil => exact absurd hperm.symm.eq_nil hne
  | cons e rest =>
    have hsel := selectAsset_fallback key e rest habsent'
    have hmem : e ∈ m := hperm.mem_iff.1 (List.mem_cons_self _ _)
    refine ⟨⟨e, hmem, rfl, hsel⟩, ?_⟩
    intro hfiles
    rw [hsel]
    exact hfiles e hmem

/-- C4, amended, at the map with the single key `1`: with the preferred key
`2.6700000762939453` absent the entry under `1` is selected. -/
theorem C4_fallback_selects_map_entry_witness :
    (∃ e ∈ lowResGroup, lowResGroup.head? = some e ∧
        selectAsset "2.6700000762939453" lowResGroup = e.2) ∧
      ((∀ e ∈ lowResGroup, e.2.Filename ≠ "") →
        (selectAsset "2.6700000762939453" lowResGroup).Filename ≠ "") :=
  C4_fallback_selects_map_entry "2.6700000762939453" lowResGroup lowResGroup
    (List.Perm.refl _) (by decide) (by decide)

/-! ## The tree asset synchroniser: the loop over the sprite groups -/

/-- The three ways one iteration of the loop can go: the filename does not
parse and the run ends; the file name is already in `downloaded` and the
iteration ends without a request; or the request is issued. -/
theorem syncGroup_cases {φ μ : Type} [Inhabited μ] (host : Host) (tree : SkillTreeData φ μ)
    (key repoVersionBase gameVersion group : String) (st : TreeState) :
    (resolvedName host tree key group = none ∧
      syncGroup host tree key repoVersionBase gameVersion group st = (.exit1, st)) ∨
    (∃ f, resolvedName host tree key group = some f ∧ f ∈ st.downloaded ∧
      syncGroup host tree key repoVersionBase gameVersion group st =
        (.completed, { st with resolved := st.resolved ++ [(group, f)] })) ∨
    (∃ f s fs1, resolvedName host tree key group = some f ∧ f ∉ st.downloaded ∧
      syncGroup host tree key repoVersionBase gameVersion group st =
        (s, { downloaded := f :: st.downloaded,
              resolved := st.resolved ++ [(group, f)],
              fetched := st.fetched ++ [(group, f)],
              fs := fs1 })) := by
  unfold syncGroup resolvedName
  dsimp only
  cases hp : host.urlParsePath (selectAsset key (mapIndex [] tree.Sprites group)).Filename with
  | none => exact Or.inl ⟨rfl, rfl⟩
  | some p =>
    right
    by_cases hmem : pathBase p ∈ st.downloaded
    · left
      exact ⟨pathBase p, rfl, hmem, by simp [hmem]⟩
    · right
      simp only [Option.map_some', hmem, if_false]
      cases hget : host.httpGet (repoVersionBase ++ "/assets/" ++ pathBase p) with
      | none => exact ⟨pathBase p, _, _, rfl, hmem, rfl⟩
      | some body =>
        cases body with
        | none => exact ⟨pathBase p, _, _, rfl, hmem, rfl⟩
        | some fileData =>
          cases hmk : host.mkdirAll (outDir gameVersion "tree/assets") <;>
            cases hw : host.writeFile (outPath gameVersion "tree/assets" (pathBase p)) <;>
            exact ⟨pathBase p, _, _, rfl, hmem, rfl⟩

theorem syncInv_init {φ μ : Type} [Inhabited μ] (host : Host) (tree : SkillTreeData φ μ)
    (key : String) (fs : FS) : SyncInv host tree key (TreeState.init fs) := by
  simp [SyncInv, TreeState.init]

theorem syncGroup_inv {φ μ : Type} [Inhabited μ] (host : Host) (tree : SkillTreeData φ μ)
    (key repoVersionBase gameVersion group : String) (st : TreeState)
    (hinv : SyncInv host tree key st) :
    SyncInv host tree key (syncGroup host tree key repoVersionBase gameVersion group st).2 := by
  obtain ⟨hnd, hdl, hres, hfirst, hname⟩ := hinv
  rcases syncGroup_cases host tree key repoVersionBase gameVersion group st with
    ⟨_, h⟩ | ⟨f, hf, hmem, h⟩ | ⟨f, s, fs1, hf, hmem, h⟩
  · rw [h]
    exact ⟨hnd, hdl, hres, hfirst, hname⟩
  · rw [h]
    refine ⟨hnd, hdl, ?_, ?_, ?_⟩
    · intro e he
      rcases List.mem_append.1 he with he | he
      · exact hres e he
      · rw [List.mem_singleton.1 he]
        exact (hdl f).1 hmem
    · intro e he
      show List.find? _ (st.resolved ++ [(group, f)]) = some e
      rw [List.find?_append, hfirst e he]
      rfl
    · intro e he
      rcases List.mem_append.1 he with he | he
      · exact hname e he
      · rw [List.mem_singleton.1 he]
        exact hf
  · rw [h]
    have hnew : f ∉ st.fetched.map Prod.snd := fun hc => hmem ((hdl f).2 hc)
    refine ⟨?_, ?_, ?_, ?_, ?_⟩
    · show (List.map Prod.snd (st.fetched ++ [(group, f)])).Nodup
      rw [List.map_append, List.nodup_append]
      refine ⟨hnd, by simp, ?_⟩
      intro x hx1 hx2
      have hx : x = f := by simpa using hx2
      exact hnew (hx ▸ hx1)
    · intro x
      show x ∈ f :: st.downloaded ↔ x ∈ List.map Prod.snd (st.fetched ++ [(group, f)])
      rw [List.map_append, List.mem_append, List.mem_cons, hdl x]
      simp [or_comm]
    · intro e he
      show e.2 ∈ List.map Prod.snd (st.fetched ++ [(group, f)])
      rw [List.map_append, List.mem_append]
      rcases List.mem_append.1 he with he | he
      · exact Or.inl (hres e he)
      · rw [List.mem_singleton.1 he]
        exact Or.inr (by simp)
    · intro e he
      show List.find? _ (st.resolved ++ [(group, f)]) = some e
      rw [List.find?_append]
      rcases List.mem_append.1 he with he | he
      · rw [hfirst e he]
        rfl
      · have he' : e = (group, f) := List.mem_singleton.1 he
        subst he'
        have hnone : List.find? (fun x => x.2 == f) st.resolved = none := by
          rw [List.find?_eq_none]
          intro x hx hxf
          have hxf' : x.2 = f := by simpa using hxf
          exact hnew (hxf' ▸ hres x hx)
        rw [hnone]
        simp
    · intro e he
      rcases List.mem_append.1 he with he | he
      · exact hname e he
      · rw [List.mem_singleton.1 he]
        exact hf

theorem syncLoop_cons {φ μ : Type} [Inhabited μ] (host : Host) (tree : SkillTreeData φ μ)
    (key repoVersionBase gameVersion group : String) (rest : List String) (st : TreeState) :
    syncLoop host tree key repoVersionBase gameVersion (group :: rest) st =
      if (syncGroup host tree key repoVersionBase gameVersion group st).1 = .completed then
        syncLoop host tree key repoVersionBase gameVersion rest
          (syncGroup host tree key repoVersionBase gameVersion group st).2
      else syncGroup host tree key repoVersionBase gameVersion group st := by
  rw [syncLoop]
  split
  · rename_i st1 heq
    simp [heq]
  · rename_i r hne
    have : (syncGroup host tree key repoVersionBase gameVersion group st).1 ≠ .completed := by
      intro hc
      exact hne (syncGroup host tree key repoVersionBase gameVersion group st).2
        (Prod.ext hc rfl)
    simp [this]

theorem syncLoop_inv {φ μ : Type} [Inhabited μ] (host : Host) (tree : SkillTreeData φ μ)
    (key repoVersionBase gameVersion : String) (groups : List String) (st : TreeState)
    (hinv : SyncInv host tree key st) :
    SyncInv host tree key (syncLoop host tree key repoVersionBase gameVersion groups st).2 := by
  induction groups generalizing st with
  | nil => exact hinv
  | cons group rest ih =>
    rw [syncLoop_cons]
    split
    · exact ih _ (syncGroup_inv host tree key repoVersionBase gameVersion group st hinv)
    · exact syncGroup_inv host tree key repoVersionBase gameVersion group st hinv

/-- The groups the loop has resolved are among those it ranges over, and are all
of them, in order, when the loop completes. -/
theorem syncLoop_resolved_groups {φ μ : Type} [Inhabited μ] (host : Host)
    (tree : SkillTreeData φ μ) (key repoVersionBase gameVersion : String)
    (groups : List String) (st : TreeState) :
    (∀ e ∈ (syncLoop host tree key repoVersionBase gameVersion groups st).2.resolved,
      e ∈ st.resolved ∨ e.1 ∈ groups) ∧
    ((syncLoop host tree key repoVersionBase gameVersion groups st).1 = .completed →
      (syncLoop host tree key repoVersionBase gameVersion groups st).2.resolved.map Prod.fst =
        st.resolved.map Prod.fst ++ groups) := by
  induction groups generalizing st with
  | nil => exact ⟨fun e he => Or.inl he, fun _ => by simp [syncLoop]⟩
  | cons group rest ih =>
    rw [syncLoop_cons]
    rcases syncGroup_cases host tree key repoVersionBase gameVersion group st with
      ⟨_, h⟩ | ⟨f, hf, hmem, h⟩ | ⟨f, s, fs1, hf, hmem, h⟩
    · rw [h]
      simp only [reduceCtorEq, if_false]
      exact ⟨fun e he => Or.inl he, fun hc => hc.elim⟩
    · rw [h]
      simp only [if_true]
      obtain ⟨hsub, hall⟩ := ih { st with resolved := st.resolved ++ [(group, f)] }
      refine ⟨?_, ?_⟩
      · intro e he
        rcases hsub e he with h1 | h1
        · rcases List.mem_append.1 h1 with h2 | h2
          · exact Or.inl h2
          · rw [List.mem_singleton.1 h2]
            exact Or.inr (List.mem_cons_self _ _)
        · exact Or.inr (List.mem_cons_of_mem _ h1)
      · intro hc
        rw [hall hc]
        simp
    · rw [h]
      by_cases hs : s = .completed
      · simp only [hs, if_true]
        obtain ⟨hsub, hall⟩ := ih
          { downloaded := f :: st.downloaded, resolved := st.resolved ++ [(group, f)],
            fetched := st.fetched ++ [(group, f)], fs := fs1 }
        refine ⟨?_, ?_⟩
        · intro e he
          rcases hsub e he with h1 | h1
          · rcases List.mem_append.1 h1 with h2 | h2
            · exact Or.inl h2
            · rw [List.mem_singleton.1 h2]
              exact Or.inr (List.mem_cons_self _ _)
          · exact Or.inr (List.mem_cons_of_mem _ h1)
        · intro hc
          rw [hall hc]
          simp
      · simp only [hs, if_false]
        refine ⟨?_, fun hc => hc.elim⟩
        intro e he
        rcases List.mem_append.1 he with h2 | h2
        · exact Or.inl h2
        · rw [List.mem_singleton.1 h2]
          exact Or.inr (List.mem_cons_self _ _)

/-- An iteration whose file name is already in `downloaded` ends without error,
without a request and without touching the filesystem. -/
theorem syncGroup_skip {φ μ : Type} [Inhabited μ] (host : Host) (tree : SkillTreeData φ μ)
    (key repoVersionBase gameVersion group : String) (st : TreeState) (f : String)
    (hf : resolvedName host tree key group = some f) (hmem : f ∈ st.downloaded) :
    syncGroup host tree key repoVersionBase gameVersion group st =
      (.completed, { st with resolved := st.resolved ++ [(group, f)] }) := by
  rcases syncGroup_cases host tree key repoVersionBase gameVersion group st with
    ⟨hnone, _⟩ | ⟨f1, hf1, _, h⟩ | ⟨f1, s, fs1, hf1, hnot, _⟩
  · rw [hnone] at hf
    cases hf
  · rw [hf1] at hf
    cases hf
    exact h
  · rw [hf1] at hf
    cases hf
    exact absurd hmem hnot

/-- The request log of the part of `downloadTreeData` after the parse. -/
theorem syncSprites_fetch_log {φ μ : Type} [Inhabited μ] (host : Host) (lib : TreeLib φ μ)
    (tree : SkillTreeData φ μ) (repoVersionBase gameVersion : String) (fs : FS) :
    ((syncSprites host lib tree repoVersionBase gameVersion fs).2.fetched.map Prod.snd).Nodup ∧
    (∀ e ∈ (syncSprites host lib tree repoVersionBase gameVersion fs).2.resolved,
      ((syncSprites host lib tree repoVersionBase gameVersion fs).2.fetched.map
        Prod.snd).count e.2 = 1) ∧
    (∀ e ∈ (syncSprites host lib tree repoVersionBase gameVersion fs).2.fetched,
      (syncSprites host lib tree repoVersionBase gameVersion fs).2.resolved.find?
        (fun x => x.2 == e.2) = some e) ∧
    (∀ e ∈ (syncSprites host lib tree repoVersionBase gameVersion fs).2.resolved,
      e.1 ∈ skillTreeSpriteGroups ∧
      ∃ z, tree.ImageZoomLevels.getLast? = some z ∧
        resolvedName host tree (lib.formatFloat z) e.1 = some e.2) ∧
    ((syncSprites host lib tree repoVersionBase gameVersion fs).1 = .completed →
      ∃ z, tree.ImageZoomLevels.getLast? = some z ∧
        ∀ g ∈ skillTreeSpriteGroups, ∃ f,
          resolvedName host tree (lib.formatFloat z) g = some f ∧
          ((syncSprites host lib tree repoVersionBase gameVersion fs).2.fetched.map
            Prod.snd).count f = 1) := by
  unfold syncSprites
  cases hlast : tree.ImageZoomLevels.getLast? with
  | none =>
    simp only
    refine ⟨by simp [TreeState.init], ?_, ?_, ?_, ?_⟩
    · intro e he
      simp [TreeState.init] at he
    · intro e he
      simp [TreeState.init] at he
    · intro e he
      simp [TreeState.init] at he
    · intro hc
      exact absurd hc (by decide)
  | some z =>
    simp only
    obtain ⟨hnd, _, hres, hfirst, hname⟩ :=
      syncLoop_inv host tree (lib.formatFloat z) repoVersionBase gameVersion
        skillTreeSpriteGroups (TreeState.init fs) (syncInv_init host tree _ fs)
    obtain ⟨hsub, hall⟩ :=
      syncLoop_resolved_groups host tree (lib.formatFloat z) repoVersionBase gameVersion
        skillTreeSpriteGroups (TreeState.init fs)
    refine ⟨hnd, ?_, hfirst, ?_, ?_⟩
    · intro e he
      exact List.count_eq_one_of_mem hnd (hres e he)
    · intro e he
      refine ⟨?_, z, rfl, hname e he⟩
      rcases hsub e he with h1 | h1
      · simp [TreeState.init] at h1
      · exact h1
    · intro hc
      refine ⟨z, rfl, ?_⟩
      intro g hg
      have hgroups := hall hc
      simp only [TreeState.init, List.map_nil, List.nil_append] at hgroups
      rw [← hgroups] at hg
      obtain ⟨e, he, heq⟩ := List.mem_map.1 hg
      refine ⟨e.2, ?_, List.count_eq_one_of_mem hnd (hres e he)⟩
      rw [← heq]
      exact hname e he

/-- The run of `downloadTreeData` either ends before the loop, with empty logs,
or is the run of the loop on a tree description parsed from the fetched
document. -/
theorem downloadTreeData_cases {φ μ : Type} [Inhabited μ] (host : Host) (lib : TreeLib φ μ)
    (treeVersion gameVersion : String) (fs : FS) :
    (∃ fs1, downloadTreeData host lib treeVersion gameVersion fs =
      (.exit1, TreeState.init fs1)) ∨
    (∃ dataJson tree fs1,
      host.httpGet (GGG_REPO_BASE ++ treeVersion ++ "/" ++ "/data.json") =
        some (some dataJson) ∧
      lib.jsonUnmarshal dataJson = some tree ∧
      downloadTreeData host lib treeVersion gameVersion fs =
        syncSprites host lib tree (GGG_REPO_BASE ++ treeVersion ++ "/") gameVersion fs1) := by
  unfold downloadTreeData
  dsimp only
  cases hget : host.httpGet (GGG_REPO_BASE ++ treeVersion ++ "/" ++ "/data.json") with
  | none => exact Or.inl ⟨fs, rfl⟩
  | some body =>
    cases body with
    | none => exact Or.inl ⟨fs, rfl⟩
    | some dataJson =>
      simp only
      rcases hw : writeDual host (outDir gameVersion "tree")
        (outPath gameVersion "tree" "data.json.gz")
        (outPath gameVersion "tree" "data.json.br") dataJson fs with ⟨s, fs1⟩
      have hs := writeDual_status host (outDir gameVersion "tree")
        (outPath gameVersion "tree" "data.json.gz")
        (outPath gameVersion "tree" "data.json.br") dataJson fs
      rw [hw] at hs
      rcases hs with hs | hs
      · simp only at hs
        subst hs
        simp only
        cases hu : lib.jsonUnmarshal dataJson with
        | none => exact Or.inl ⟨fs1, rfl⟩
        | some tree => exact Or.inr ⟨dataJson, tree, fs1, rfl, hu, rfl⟩
      · simp only at hs
        subst hs
        exact Or.inl ⟨fs1, rfl⟩

/-- C5: in every run of `downloadTreeData`, whatever the tree description and
whatever the network and the filesystem do, the asset requests issued name no
file twice; every file name resolved for a sprite group is requested exactly
once, and the request was issued for the first group that resolved to it; when
the run completes, every one of the twenty groups has a resolved file name and
that name was requested exactly once; and an iteration whose file name was
already requested ends as completed, issuing no request and leaving
`downloaded`, the request log and the filesystem as they were. -/
theorem C5_each_file_requested_once {φ μ : Type} [Inhabited μ] (host : Host)
    (lib : TreeLib φ μ) (treeVersion gameVersion : String) (fs : FS) :
    ((downloadTreeData host lib treeVersion gameVersion fs).2.fetched.map Prod.snd).Nodup ∧
    (∀ e ∈ (downloadTreeData host lib treeVersion gameVersion fs).2.resolved,
      ((downloadTreeData host lib treeVersion gameVersion fs).2.fetched.map
        Prod.snd).count e.2 = 1) ∧
    (∀ e ∈ (downloadTreeData host lib treeVersion gameVersion fs).2.fetched,
      (downloadTreeData host lib treeVersion gameVersion fs).2.resolved.find?
        (fun x => x.2 == e.2) = some e) ∧
    ((downloadTreeData host lib treeVersion gameVersion fs).1 = .completed →
      ∃ dataJson tree z,
        host.httpGet (GGG_REPO_BASE ++ treeVersion ++ "/" ++ "/data.json") =
          some (some dataJson) ∧
        lib.jsonUnmarshal dataJson = some tree ∧
        tree.ImageZoomLevels.getLast? = some z ∧
        ∀ g ∈ skillTreeSpriteGroups, ∃ f,
          resolvedName host tree (lib.formatFloat z) g = some f ∧
          ((downloadTreeData host lib treeVersion gameVersion fs).2.fetched.map
            Prod.snd).count f = 1) ∧
    (∀ (tree : SkillTreeData φ μ) (key group f : String) (st : TreeState),
      resolvedName host tree key group = some f → f ∈ st.downloaded →
      syncGroup host tree key (GGG_REPO_BASE ++ treeVersion ++ "/") gameVersion group st =
        (.completed, { st with resolved := st.resolved ++ [(group, f)] })) := by
  have hskip : ∀ (tree : SkillTreeData φ μ) (key group f : String) (st : TreeState),
      resolvedName host tree key group = some f → f ∈ st.downloaded →
      syncGroup host tree key (GGG_REPO_BASE ++ treeVersion ++ "/") gameVersion group st =
        (.completed, { st with resolved := st.resolved ++ [(group, f)] }) :=
    fun tree key group f st hf hmem => syncGroup_skip host tree key _ gameVersion group st f hf hmem
  rcases downloadTreeData_cases host lib treeVersion gameVersion fs with
    ⟨fs1, h⟩ | ⟨dataJson, tree, fs1, hget, hparse, h⟩
  · rw [h]
    refine ⟨by simp [TreeState.init], ?_, ?_, ?_, hskip⟩
    · intro e he
      simp [TreeState.init] at he
    · intro e he
      simp [TreeState.init] at he
    · intro hc
      simp at hc
  · rw [h]
    obtain ⟨h1, h2, h3, _, h5⟩ :=
      syncSprites_fetch_log host lib tree (GGG_REPO_BASE ++ treeVersion ++ "/") gameVersion fs1
    refine ⟨h1, h2, h3, ?_, hskip⟩
    intro hc
    obtain ⟨z, hz, hall⟩ := h5 hc
    exact ⟨dataJson, tree, z, hget, hparse, hz, hall⟩

/-- C5 on a tree description in which `frame` and `jewel` both resolve to
`ascendancy-frame.png`: the run completes, the file is requested once, for
`frame`, and nineteen requests are issued for the twenty groups. -/
theorem C5_each_file_requested_once_witness :
    ((downloadTreeData demoHost (demoLib sharedFrameTree) "3.22.0" "3.22"
      emptyFS).2.fetched.map Prod.snd).Nodup ∧
    (downloadTreeData demoHost (demoLib sharedFrameTree) "3.22.0" "3.22" emptyFS).1 =
      .completed ∧
    ((downloadTreeData demoHost (demoLib sharedFrameTree) "3.22.0" "3.22"
      emptyFS).2.fetched.map Prod.snd).count "ascendancy-frame.png" = 1 ∧
    ("frame", "ascendancy-frame.png") ∈
      (downloadTreeData demoHost (demoLib sharedFrameTree) "3.22.0" "3.22" emptyFS).2.fetched ∧
    ("jewel", "ascendancy-frame.png") ∈
      (downloadTreeData demoHost (demoLib sharedFrameTree) "3.22.0" "3.22" emptyFS).2.resolved ∧
    (downloadTreeData demoHost (demoLib sharedFrameTree) "3.22.0" "3.22"
      emptyFS).2.fetched.length = 19 :=
  ⟨(C5_each_file_requested_once demoHost (demoLib sharedFrameTree) "3.22.0" "3.22" emptyFS).1,
    by decide, by decide, by decide, by decide, by decide⟩

/-! ## The tree asset synchroniser: groups without an asset, empty zoom list -/

/-- For a sprite group that is missing from `Sprites`, or whose resolution map
is empty, the selection yields the zero asset reference, and the file name the
loop goes on with is the base name of the URL path of the empty string. -/
theorem unresolvable_group_resolves_empty_filename {φ μ : Type} [Inhabited μ] (host : Host)
    (tree : SkillTreeData φ μ) (key group : String)
    (hgroup : mapIndex [] tree.Sprites group = []) :
    selectAsset key (mapIndex [] tree.Sprites group) = AssetReference.zero ∧
    resolvedName host tree key group = (host.urlParsePath "").map pathBase := by
  unfold resolvedName
  rw [hgroup, selectAsset_nil]
  exact ⟨rfl, rfl⟩

/-- C6 at a failing input: for the tree description `noSpritesTree`, in which no
sprite group has a resolution map, on a host where every operation succeeds,
`downloadTreeData` does not end with a fatal error. It completes; it issues one
asset request, for the first group, under the file name `.` (the base name of
the empty path); and the nineteen later groups are skipped as already
downloaded. -/
theorem C6_unresolvable_group_not_fatal :
    (∀ g ∈ skillTreeSpriteGroups, mapIndex [] noSpritesTree.Sprites g = []) ∧
    demoHost.urlParsePath "" = some "" ∧
    pathBase "" = "." ∧
    (downloadTreeData demoHost (demoLib noSpritesTree) "3.22.0" "3.22" emptyFS).1 =
      .completed ∧
    (downloadTreeData demoHost (demoLib noSpritesTree) "3.22.0" "3.22" emptyFS).2.fetched =
      [("background", ".")] ∧
    (downloadTreeData demoHost (demoLib noSpritesTree) "3.22.0" "3.22" emptyFS).2.resolved =
      skillTreeSpriteGroups.map (fun g => (g, ".")) := by
  refine ⟨by decide, by decide, by decide, by decide, by decide, by decide⟩

/-- C10 at the failing inputs: when the tree description is fetched, stored and
parsed, and its `ImageZoomLevels` is empty, `downloadTreeData` ends in a
run-time panic (index out of range on line 280): the process status is 2,
neither 0 nor 1. -/
theorem C10_empty_zoom_levels_panic {φ μ : Type} [Inhabited μ] (host : Host)
    (lib : TreeLib φ μ) (treeVersion gameVersion : String) (fs : FS) (dataJson : Bytes)
    (tree : SkillTreeData φ μ)
    (hget : host.httpGet (GGG_REPO_BASE ++ treeVersion ++ "/" ++ "/data.json") =
      some (some dataJson))
    (hwrite : (writeDual host (outDir gameVersion "tree")
      (outPath gameVersion "tree" "data.json.gz")
      (outPath gameVersion "tree" "data.json.br") dataJson fs).1 = .completed)
    (hparse : lib.jsonUnmarshal dataJson = some tree)
    (hempty : tree.ImageZoomLevels = []) :
    (downloadTreeData host lib treeVersion gameVersion fs).1 = .panicked ∧
    (downloadTreeData host lib treeVersion gameVersion fs).1.code = 2 ∧
    (downloadTreeData host lib treeVersion gameVersion fs).2.fetched = [] := by
  have hrun : downloadTreeData host lib treeVersion gameVersion fs =
      (.panicked, TreeState.init (writeDual host (outDir gameVersion "tree")
        (outPath gameVersion "tree" "data.json.gz")
        (outPath gameVersion "tree" "data.json.br") dataJson fs).2) := by
    unfold downloadTreeData
    dsimp only
    rw [hget]
    simp only
    rcases hw : writeDual host (outDir gameVersion "tree")
      (outPath gameVersion "tree" "data.json.gz")
      (outPath gameVersion "tree" "data.json.br") dataJson fs with ⟨s, fs1⟩
    rw [hw] at hwrite
    simp only at hwrite
    subst hwrite
    simp only [hparse]
    unfold syncSprites
    rw [hempty]
    rfl
  rw [hrun]
  exact ⟨rfl, rfl, rfl⟩

/-- C10 at the tree description `noZoomTree` on a host where every operation
succeeds: the run panics. -/
theorem C10_empty_zoom_levels_panic_witness :
    (downloadTreeData demoHost (demoLib noZoomTree) "3.22.0" "3.22" emptyFS).1 = .panicked ∧
    (downloadTreeData demoHost (demoLib noZoomTree) "3.22.0" "3.22" emptyFS).1.code = 2 ∧
    (downloadTreeData demoHost (demoLib noZoomTree) "3.22.0" "3.22" emptyFS).2.fetched = [] :=
  C10_empty_zoom_levels_panic demoHost (demoLib noZoomTree) "3.22.0" "3.22" emptyFS []
    noZoomTree rfl (by decide) rfl rfl

theorem syncGroup_status {φ μ : Type} [Inhabited μ] (host : Host) (tree : SkillTreeData φ μ)
    (key repoVersionBase gameVersion group : String) (st : TreeState) :
    (syncGroup host tree key repoVersionBase gameVersion group st).1 = .completed ∨
      (syncGroup host tree key repoVersionBase gameVersion group st).1 = .exit1 := by
  unfold syncGroup
  dsimp only
  cases host.urlParsePath (selectAsset key (mapIndex [] tree.Sprites group)).Filename with
  | none => exact Or.inr rfl
  | some p =>
    simp only
    split
    · exact Or.inl rfl
    · cases host.httpGet (repoVersionBase ++ "/assets/" ++ pathBase p) with
      | none => exact Or.inr rfl
      | some body =>
        cases body with
        | none => exact Or.inr rfl
        | some fileData =>
          cases host.mkdirAll (outDir gameVersion "tree/assets") <;>
            cases host.writeFile (outPath gameVersion "tree/assets" (pathBase p)) <;>
            simp

theorem syncLoop_status {φ μ : Type} [Inhabited μ] (host : Host) (tree : SkillTreeData φ μ)
    (key repoVersionBase gameVersion : String) (groups : List String) (st : TreeState) :
    (syncLoop host tree key repoVersionBase gameVersion groups st).1 = .completed ∨
      (syncLoop host tree key repoVersionBase gameVersion groups st).1 = .exit1 := by
  induction groups generalizing st with
  | nil => exact Or.inl rfl
  | cons group rest ih =>
    rw [syncLoop_cons]
    split
    · exact ih _
    · exact syncGroup_status _ _ _ _ _ _ _

/-- A run of `downloadTreeData` on a document that parses to a tree description
with a non-empty `ImageZoomLevels` ends as completed (status 0) or with
`os.Exit(1)`; so does every run that ends before the document is parsed. A
panic occurs exactly on a parsed document whose `ImageZoomLevels` is empty. -/
theorem downloadTreeData_status {φ μ : Type} [Inhabited μ] (host : Host) (lib : TreeLib φ μ)
    (treeVersion gameVersion : String) (fs : FS) :
    ((downloadTreeData host lib treeVersion gameVersion fs).1.code = 0 ∨
      (downloadTreeData host lib treeVersion gameVersion fs).1.code = 1) ∨
    (∃ dataJson tree,
      host.httpGet (GGG_REPO_BASE ++ treeVersion ++ "/" ++ "/data.json") =
        some (some dataJson) ∧
      lib.jsonUnmarshal dataJson = some tree ∧
      tree.ImageZoomLevels = [] ∧
      (downloadTreeData host lib treeVersion gameVersion fs).1 = .panicked) := by
  rcases downloadTreeData_cases host lib treeVersion gameVersion fs with
    ⟨fs1, h⟩ | ⟨dataJson, tree, fs1, hget, hparse, h⟩
  · rw [h]
    exact Or.inl (Or.inr rfl)
  · rw [h]
    unfold syncSprites
    cases hlast : tree.ImageZoomLevels.getLast? with
    | none =>
      exact Or.inr ⟨dataJson, tree, hget, hparse, List.getLast?_eq_none_iff.1 hlast, rfl⟩
    | some z =>
      simp only
      rcases syncLoop_status host tree (lib.formatFloat z) (GGG_REPO_BASE ++ treeVersion ++ "/")
        gameVersion skillTreeSpriteGroups (TreeState.init fs1) with hs | hs
      · rw [hs]
        exact Or.inl (Or.inl rfl)
      · rw [hs]
        exact Or.inl (Or.inr rfl)

/-! ## The table exporter: the bundle index -/

/-- When the bundle index `Bundles2/_.index.bin` is missing under the game path,
`extractRawData` ends with status 1 before any table is processed: the
filesystem is left exactly as it was. -/
theorem extractRawData_missing_index {ρ : Type} (dec : Decoder ρ) (host : Host)
    (gamePath gameVersion : String) (fs : FS)
    (hstat : host.stat (gamePath ++ "/Bundles2/_.index.bin") = false) :
    extractRawData dec host gamePath gameVersion fs = (.exit1, fs) := by
  unfold extractRawData extractRawDataOn
  rw [hstat]
  rfl

/-- The run on a host without the bundle index. -/
theorem extractRawData_missing_index_witness :
    extractRawData demoDecoder noIndexHost "game" "3.22" emptyFS = (.exit1, emptyFS) :=
  extractRawData_missing_index demoDecoder noIndexHost "game" "3.22" emptyFS rfl

end PobData
